import Mathlib

/-!
Verification development for the `claude-tooling-index` repository.

The definitions below are shallow embeddings of the Python source:

* `update_components`, `track_invocation`, `get_component_usage_p95`,
  `migrate_components_add_platform` embed `claude_tooling_index/database.py`;
* `redact_env_vars`, `redact_extra_config` embed
  `claude_tooling_index/scanners/mcps.py`;
* `toggle_codex_mcp`, `toggle_claude_mcp_json`, `toggle_claude_mcp_configs`
  embed `claude_tooling_index/toggles.py`;
* `scan_sequential`, `scan_parallel` embed `claude_tooling_index/scanner.py`;
* `mcp_scan` embeds `MCPScanner.scan` of `claude_tooling_index/scanners/mcps.py`.

Timestamps are modelled as natural numbers, SQLite tables as lists of rows,
and the single-connection database as an explicit state record.
-/

/-- A scanned component as passed to `ToolingDatabase.update_components`
(`models.py` `ComponentMetadata`): identity fields plus the mutable
attributes the database writes.  `metadataJson` stands for the serialized
metadata dictionary built at the top of `update_components` (a pure function
of the component), and `description` for `metadata_dict.get("description", "")`. -/
structure Component where
  platform : String
  name : String
  type : String
  origin : String
  status : String
  version : Option String
  installPath : String
  metadataJson : String
  description : String
  deriving DecidableEq, Repr

/-- One row of the `components` table (current generation, with `platform`). -/
structure Row where
  id : Nat
  platform : String
  name : String
  type : String
  origin : String
  status : String
  version : Option String
  installPath : String
  firstSeen : Nat
  lastSeen : Nat
  metadataJson : String
  deriving DecidableEq, Repr

/-- One row of the `installation_events` table. -/
structure InstallEvent where
  componentId : Nat
  eventType : String
  timestamp : Nat
  version : Option String
  metadataJson : String
  deriving DecidableEq, Repr

/-- One row of the `invocations` table. -/
structure InvRow where
  componentId : Nat
  sessionId : String
  timestamp : Nat
  durationMs : Option Int
  success : Bool
  errorMessage : Option String
  deriving DecidableEq, Repr

/-- One row of the `components_fts` full-text table (`rowid`, `name`,
`description`, `keywords`). -/
structure FtsRow where
  rowid : Nat
  name : String
  description : String
  keywords : String
  deriving DecidableEq, Repr

/-- The state behind one `ToolingDatabase` connection.  `nextId` models the
`AUTOINCREMENT` counter of the `components` primary key. -/
structure DB where
  components : List Row
  events : List InstallEvent
  invocations : List InvRow
  fts : List FtsRow
  nextId : Nat
  deriving DecidableEq, Repr

def DB.empty : DB := ⟨[], [], [], [], 0⟩

/-- The `WHERE platform = ? AND name = ? AND type = ?` identity test. -/
def sameIdentity (platform name tp : String) (r : Row) : Bool :=
  r.platform == platform && r.name == name && r.type == tp

/-- `keywords` column written to the FTS table:
`f"{platform} {component.type}"`. -/
def ftsKeywords (platform tp : String) : String :=
  platform ++ " " ++ tp

/-- `INSERT OR REPLACE INTO components_fts (rowid, ...)`: any existing row
with the same `rowid` is replaced. -/
def ftsReplace (fts : List FtsRow) (row : FtsRow) : List FtsRow :=
  (fts.filter fun f => f.rowid != row.rowid) ++ [row]

/-- One iteration of the loop body of `ToolingDatabase.update_components`
(database.py lines 250-483): look the component up by identity; if present,
overwrite the mutable columns and append an `updated` event; if absent,
insert a fresh row (both seen-timestamps set to `now`) and append an
`installed` event; in both cases upsert the FTS row. -/
def upsertComponent (now : Nat) (db : DB) (c : Component) : DB :=
  match db.components.find? (sameIdentity c.platform c.name c.type) with
  | some existing =>
      { db with
        components := db.components.map fun r =>
          if r.id == existing.id then
            { r with
              origin := c.origin
              status := c.status
              version := c.version
              installPath := c.installPath
              lastSeen := now
              metadataJson := c.metadataJson }
          else r
        events := db.events ++
          [⟨existing.id, "updated", now, c.version, c.metadataJson⟩]
        fts := ftsReplace db.fts
          ⟨existing.id, c.name, c.description, ftsKeywords c.platform c.type⟩ }
  | none =>
      let cid := db.nextId
      { db with
        components := db.components ++
          [⟨cid, c.platform, c.name, c.type, c.origin, c.status, c.version,
            c.installPath, now, now, c.metadataJson⟩]
        events := db.events ++
          [⟨cid, "installed", now, c.version, c.metadataJson⟩]
        fts := ftsReplace db.fts
          ⟨cid, c.name, c.description, ftsKeywords c.platform c.type⟩
        nextId := cid + 1 }

/-- `ToolingDatabase.update_components`: one `current_time` per call, then the
upsert loop over `scan_result.all_components`. -/
def update_components (now : Nat) (db : DB) (cs : List Component) : DB :=
  cs.foldl (upsertComponent now) db

/-- `ToolingDatabase.track_invocation` (database.py lines 487-530): look the
component up by identity; if absent, return without touching the database;
otherwise append one invocation row. -/
def track_invocation (now : Nat) (db : DB)
    (platform name tp sessionId : String) (durationMs : Option Int)
    (success : Bool) (errorMessage : Option String) : DB :=
  match db.components.find? (sameIdentity platform name tp) with
  | none => db
  | some r =>
      { db with invocations := db.invocations ++
          [⟨r.id, sessionId, now, durationMs, success, errorMessage⟩] }

/-- Python `int(round(0.95 * k))`.  `round` on a float uses
round-half-to-even; on every machine-checkable input the float computation
agrees with round-half-to-even of the exact rational `19*k/20`, which is what
this function computes. -/
def pyRound95 (k : Nat) : Nat :=
  let num := 19 * k
  let q := num / 20
  let r := num % 20
  if 2 * r < 20 then q
  else if 20 < 2 * r then q + 1
  else if q % 2 == 0 then q else q + 1

/-- The invocation rows the two usage queries of `get_component_usage` range
over: `component_id = ?` and the `timestamp >= datetime('now', '-? days')`
window, modelled as a cutoff timestamp. -/
def windowRows (db : DB) (cid : Nat) (cutoff : Nat) : List InvRow :=
  db.invocations.filter fun r => r.componentId == cid && decide (cutoff ≤ r.timestamp)

/-- The p95 computation of `ToolingDatabase.get_component_usage`
(database.py lines 664-682): the SQL query selects the window's non-NULL
`duration_ms` values ordered ascending; the Python list comprehension
`[... if r["duration_ms"]]` then drops falsy (zero) values; if any remain,
index at `int(round(0.95 * (len - 1)))` clamped to the valid range.  Returns
`none` when the component is unknown (the `found: False` shape has no p95)
or when no durations survive the filters. -/
def get_component_usage_p95 (db : DB) (platform name tp : String)
    (cutoff : Nat) : Option Int :=
  match db.components.find? (sameIdentity platform name tp) with
  | none => none
  | some r =>
      let ordered :=
        ((windowRows db r.id cutoff).filterMap (·.durationMs)).insertionSort (· ≤ ·)
      let durations := ordered.filter fun d => d != 0
      if durations.isEmpty then none
      else
        let idx := min (pyRound95 (durations.length - 1)) (durations.length - 1)
        some (durations.getD idx 0)

/-- Modelled from the spec: the p95 described by the claim — sort *all* of
the entry's in-window durations (every non-NULL `duration_ms`) ascending and
index at `round(0.95 × (n−1))` clamped to `[0, n−1]`, `n` the number of those
durations. -/
def specP95 (durations : List Int) : Option Int :=
  if durations.isEmpty then none
  else
    let sorted := durations.insertionSort (· ≤ ·)
    let idx := min (pyRound95 (durations.length - 1)) (durations.length - 1)
    some (sorted.getD idx 0)

/-- One row of the old-generation `components` table (before the `platform`
column existed; uniqueness was on `(name, type)`). -/
structure OldRow where
  id : Nat
  name : String
  type : String
  origin : String
  status : String
  version : Option String
  installPath : String
  firstSeen : Nat
  lastSeen : Nat
  metadataJson : String
  deriving DecidableEq, Repr

/-- The migration's row copy: `SELECT id, 'claude', name, type, ... FROM
components_old` — every column preserved, `platform` defaulted to
`'claude'`. -/
def oldRowToNew (o : OldRow) : Row :=
  ⟨o.id, "claude", o.name, o.type, o.origin, o.status, o.version,
   o.installPath, o.firstSeen, o.lastSeen, o.metadataJson⟩

/-- An `INSERT` into the new-generation `components` table, which SQLite
rejects (raising, hence aborting the migration transaction) when the
`id` primary key or the `UNIQUE(platform, name, type)` constraint is
violated. -/
def insertComponentRow (rows : List Row) (r : Row) : Option (List Row) :=
  if rows.any (fun x => x.id == r.id) then none
  else if rows.any (sameIdentity r.platform r.name r.type) then none
  else some (rows ++ [r])

/-- The `INSERT INTO components ... SELECT ... FROM components_old` step of
the migration, row by row. -/
def copyOldRows (olds : List OldRow) : Option (List Row) :=
  olds.foldlM (fun acc o => insertComponentRow acc (oldRowToNew o)) []

/-- The FTS rebuild loop shared by the migration and
`_rebuild_components_fts`: one `INSERT OR REPLACE` per component row, with
`description` extracted from the metadata JSON (`getDesc` models
`json.loads(metadata_json).get("description") or ""`, best-effort) and
`keywords = f"{platform} {type}"`. -/
def rebuildFts (getDesc : String → String) (rows : List Row) : List FtsRow :=
  rows.foldl
    (fun fts r =>
      ftsReplace fts ⟨r.id, r.name, getDesc r.metadataJson, ftsKeywords r.platform r.type⟩)
    []

/-- The schema the `components` store is left in after opening: either still
the old generation (no `platform` column) or the current generation. -/
inductive SchemaState where
  | old (rows : List OldRow) (fts : List FtsRow)
  | current (rows : List Row) (fts : List FtsRow)
  deriving DecidableEq, Repr

/-- The body of the migration transaction
(`_migrate_components_add_platform`, database.py lines 118-190): rename
`components` to `components_old`, drop the FTS table, create the
current-generation table, copy every row with `platform` defaulted, drop the
old table, recreate the FTS table and rebuild it from the copied rows.
`none` models an exception from any step (here: a constraint violation while
copying), which the `except` branch answers with `ROLLBACK`. -/
def migrationSteps (getDesc : String → String) (olds : List OldRow) :
    Option (List Row × List FtsRow) :=
  (copyOldRows olds).bind fun copied =>
    some (copied, rebuildFts getDesc copied)

/-- `_migrate_components_add_platform` as observed through the connection:
on success the store is on the current generation with the copied rows and
rebuilt FTS index; on any step's failure the transaction is rolled back and
the pre-migration schema (old rows, old FTS table) is intact. -/
def migrate_components_add_platform (getDesc : String → String)
    (olds : List OldRow) (fts0 : List FtsRow) : SchemaState :=
  match migrationSteps getDesc olds with
  | some (rows, fts) => SchemaState.current rows fts
  | none => SchemaState.old olds fts0

/-- A Python value as handled by the redaction helpers of
`scanners/mcps.py` (floats do not occur in these configs and are omitted;
they take the same branch as `int`). -/
inductive PyVal where
  | none
  | bool (b : Bool)
  | int (n : Int)
  | str (s : String)
  | list (xs : List PyVal)
  | dict (fields : List (String × PyVal))

/-- Does `needle` occur as a contiguous run inside `hay`? -/
def containsSubChars (hay needle : List Char) : Bool :=
  needle.isPrefixOf hay ||
    match hay with
    | [] => false
    | _ :: rest => containsSubChars rest needle

/-- Substring test (Python `in` / `re.search` of a literal pattern). -/
def containsSub (hay needle : String) : Bool :=
  containsSubChars hay.data needle.data

/-- ASCII lower-casing of one character (what Python's `(?i)` flag and
`str.lower()` amount to on the ASCII keys involved). -/
def pyCharLower (c : Char) : Char :=
  if 'A' ≤ c && c ≤ 'Z' then Char.ofNat (c.toNat + 32) else c

def pyToLower (s : String) : String :=
  (s.data.map pyCharLower).asString

/-- `_SENSITIVE_KEY_RE.search(key)`: case-insensitive substring search for
`token|secret|password|api[_-]?key|bearer|authorization|auth|cookie`
(the optional `[_-]` makes the `api…key` branch match `apikey`, `api_key`
and `api-key`). -/
def sensitiveKey (key : String) : Bool :=
  let k := pyToLower key
  containsSub k "token" || containsSub k "secret" || containsSub k "password" ||
  containsSub k "apikey" || containsSub k "api_key" || containsSub k "api-key" ||
  containsSub k "bearer" || containsSub k "authorization" ||
  containsSub k "auth" || containsSub k "cookie"

/-- `value.startswith("${") and value.endswith("}")`. -/
def isPlaceholder (s : String) : Bool :=
  List.isPrefixOf "$\x7b".data s.data && s.data.getLast? == some '\x7d'

/-- `value.startswith(("/", "~", "./", "../"))`. -/
def isPathLike (s : String) : Bool :=
  List.isPrefixOf "/".data s.data || List.isPrefixOf "~".data s.data ||
  List.isPrefixOf "./".data s.data || List.isPrefixOf "../".data s.data

/-- `_HEX_TOKEN_RE`: `(?i)^[0-9a-f]{32,}$`. -/
def isHexToken (s : String) : Bool :=
  decide (32 ≤ s.length) &&
  s.data.all fun c => c.isDigit || ("abcdefABCDEF".data.contains c)

/-- `_B64_TOKEN_RE`: `^[A-Za-z0-9+/=_-]{32,}$`. -/
def isB64Token (s : String) : Bool :=
  decide (32 ≤ s.length) &&
  s.data.all fun c => c.isAlphanum || ("+/=_-".data.contains c)

/-- `value.strip()` (Python strips ASCII whitespace from both ends). -/
def pyStrip (s : String) : String :=
  (s.data.dropWhile Char.isWhitespace).reverse
    |>.dropWhile Char.isWhitespace |>.reverse |>.asString

/-- The per-value body of `_redact_env_vars` (scanners/mcps.py lines 18-33):
`None` becomes `""`; placeholder-syntax and path-like strings are preserved;
every other value becomes `"<redacted>"`.  The key is never consulted. -/
def redactEnvValue (v : PyVal) : PyVal :=
  match v with
  | .none => .str ""
  | .str s =>
      if isPlaceholder s then .str s
      else if isPathLike s then .str s
      else .str "<redacted>"
  | _ => .str "<redacted>"

/-- `_redact_env_vars` over the entries of the `env` mapping. -/
def redact_env_vars (env : List (String × PyVal)) : List (String × PyVal) :=
  env.map fun p => (p.1, redactEnvValue p.2)

mutual

/-- `_redact_extra_config` (scanners/mcps.py lines 36-67): pass scalars
through; redact anything under a secret-shaped key; preserve placeholder and
path-like strings; redact long high-entropy strings; recurse through lists
(keeping the key) and dicts (switching to each entry's own key). -/
def redact_extra_config (key : String) (v : PyVal) : PyVal :=
  match v with
  | .none => .none
  | .bool b => .bool b
  | .int n => .int n
  | .str s =>
      if sensitiveKey key then .str "<redacted>"
      else if isPlaceholder s then .str s
      else if isPathLike s then .str s
      else
        let compact := pyStrip s
        if decide (32 ≤ compact.length) && (isHexToken compact || isB64Token compact) then
          .str "<redacted>"
        else .str s
  | .list xs =>
      if sensitiveKey key then .str "<redacted>"
      else .list (redactExtraList key xs)
  | .dict fs =>
      if sensitiveKey key then .str "<redacted>"
      else .dict (redactExtraFields fs)

def redactExtraList (key : String) (vs : List PyVal) : List PyVal :=
  match vs with
  | [] => []
  | x :: xs => redact_extra_config key x :: redactExtraList key xs

def redactExtraFields (fs : List (String × PyVal)) : List (String × PyVal) :=
  match fs with
  | [] => []
  | (k, v) :: rest => (k, redact_extra_config k v) :: redactExtraFields rest

end

/-- What one scanner's `scan()` does on the current on-disk state: return a
component list, or raise (`err` carries `str(e)`).  The disk is fixed and
the scanners are read-only, so each scanner has one outcome per scan. -/
inductive ScanOutcome (α : Type) where
  | ok (components : List α)
  | err (message : String)
  deriving DecidableEq, Repr

/-- The six core scanners in the order `_scan_sequential` runs them and
`_scan_parallel` submits them. -/
def scannerNames : Fin 6 → String
  | 0 => "skills"
  | 1 => "plugins"
  | 2 => "commands"
  | 3 => "hooks"
  | 4 => "mcps"
  | 5 => "binaries"

/-- `ToolingScanner._safe_scan`: the scanner's list on success; on an
exception, append `f"Error scanning {component_type}: {e}"` to the shared
error list and return `[]`. -/
def safeScanComponents (o : ScanOutcome α) : List α :=
  match o with
  | .ok l => l
  | .err _ => []

/-- The error string `_safe_scan` contributes for scanner `i`, if any. -/
def safeScanError (outcomes : Fin 6 → ScanOutcome α) (i : Fin 6) : Option String :=
  match outcomes i with
  | .ok _ => Option.none
  | .err e => Option.some ("Error scanning " ++ scannerNames i ++ ": " ++ e)

/-- A scan result as assembled by `ToolingScanner.scan_all`: the six
per-type component lists and the shared error list (scan_time omitted: it is
wall-clock time, identical in the claim's comparison). -/
structure ScanResultM (α : Type) where
  skills : List α
  plugins : List α
  commands : List α
  hooks : List α
  mcps : List α
  binaries : List α
  errors : List String
  deriving DecidableEq, Repr

/-- `ToolingScanner.scan_all(parallel=False)` → `_scan_sequential`
(scanner.py lines 121-130): the six `_safe_scan` calls run in program
order, so errors land in the shared list in scanner order. -/
def scan_sequential (outcomes : Fin 6 → ScanOutcome α) : ScanResultM α :=
  { skills := safeScanComponents (outcomes 0)
    plugins := safeScanComponents (outcomes 1)
    commands := safeScanComponents (outcomes 2)
    hooks := safeScanComponents (outcomes 3)
    mcps := safeScanComponents (outcomes 4)
    binaries := safeScanComponents (outcomes 5)
    errors := (List.finRange 6).filterMap (safeScanError outcomes) }

/-- `ToolingScanner.scan_all(parallel=True)` → `_scan_parallel`
(scanner.py lines 86-119): each component list is taken from its own
future, but the six tasks append to the one shared `errors` list as they
hit exceptions, so the error order is the thread-completion order
`schedule` (any permutation of the six scanners). -/
def scan_parallel (schedule : List (Fin 6)) (outcomes : Fin 6 → ScanOutcome α) :
    ScanResultM α :=
  { skills := safeScanComponents (outcomes 0)
    plugins := safeScanComponents (outcomes 1)
    commands := safeScanComponents (outcomes 2)
    hooks := safeScanComponents (outcomes 3)
    mcps := safeScanComponents (outcomes 4)
    binaries := safeScanComponents (outcomes 5)
    errors := schedule.filterMap (safeScanError outcomes) }

/-- The MCP config sources in the order `MCPScanner.scan` visits them
(scanners/mcps.py lines 138-158): user-level active then disabled servers
from `~/.claude.json`, project-scoped active then disabled servers, plugin
servers, legacy `~/.claude/mcp.json` active then disabled servers, and
built-ins.  `β` is the record payload parsed for a name. -/
structure McpSources (β : Type) where
  userActive : List (String × β)
  userDisabled : List (String × β)
  projectActive : List (String × β)
  projectDisabled : List (String × β)
  plugin : List (String × β)
  legacyActive : List (String × β)
  legacyDisabled : List (String × β)
  builtin : List (String × β)

/-- All candidate records in the fixed scan order. -/
def candidateOrder (s : McpSources β) : List (String × β) :=
  s.userActive ++ s.userDisabled ++ s.projectActive ++ s.projectDisabled ++
    s.plugin ++ s.legacyActive ++ s.legacyDisabled ++ s.builtin

/-- The shared loop body of the `_scan_*` helpers: `if name in seen_names:
continue; seen_names.add(name); mcps.append(...)`. -/
def scanPhase (acc : List String × List (String × β)) (cands : List (String × β)) :
    List String × List (String × β) :=
  cands.foldl
    (fun acc c => if acc.1.contains c.1 then acc else (c.1 :: acc.1, acc.2 ++ [c]))
    acc

/-- `MCPScanner.scan`: thread the one `seen_names` set through the five
source helpers and concatenate their outputs. -/
def mcp_scan (s : McpSources β) : List (String × β) :=
  (scanPhase (scanPhase (scanPhase (scanPhase (scanPhase (scanPhase (scanPhase (scanPhase
    ([], []) s.userActive) s.userDisabled) s.projectActive) s.projectDisabled)
    s.plugin) s.legacyActive) s.legacyDisabled) s.builtin).2

/-- Python `\s` on the ASCII range: `[ \t\n\r\f\v]`. -/
def isPySpace (c : Char) : Bool :=
  c == ' ' || c == '\t' || c == '\n' || c == '\r' || c == '\x0b' || c == '\x0c'

/-- `line.rstrip("\n")`. -/
def rstripNewline (s : String) : String :=
  ((s.data.reverse.dropWhile (· == '\n')).reverse).asString

/-- The tail `\s*\]\s*(#.*)?$` of `_toggle_codex_mcp`'s header regex,
applied to the characters after the key. -/
def matchTailAfterKey (cs : List Char) : Bool :=
  match cs.dropWhile isPySpace with
  | ']' :: rest =>
      match rest.dropWhile isPySpace with
      | [] => true
      | '#' :: _ => true
      | _ => false
  | _ => false

/-- The greedy `mcp_servers(?:_disabled)?` group followed by the literal
dot: with backtracking this accepts exactly a `mcp_servers_disabled.` or
`mcp_servers.` prefix, returning the matched table name and the characters
after the dot. -/
def stripTableName (cs : List Char) : Option (String × List Char) :=
  if List.isPrefixOf "mcp_servers_disabled.".data cs then
    some ("mcp_servers_disabled", cs.drop 21)
  else if List.isPrefixOf "mcp_servers.".data cs then
    some ("mcp_servers", cs.drop 12)
  else none

/-- The lazy `(?P<key>.+?)` group: the shortest non-empty prefix whose
remainder matches the rest of the pattern. -/
def lazyKeySplit : List Char → Option (List Char)
  | [] => none
  | c :: rest =>
      if matchTailAfterKey rest then some [c]
      else (lazyKeySplit rest).map (c :: ·)

/-- `header_re.match(line.rstrip("\n"))` for
`^\[\s*(?P<table>mcp_servers(?:_disabled)?)\.(?P<key>.+?)\s*\]\s*(?P<comment>#.*)?$`:
returns the table and raw key groups. -/
def headerMatch (line : String) : Option (String × String) :=
  match (rstripNewline line).data with
  | '[' :: rest =>
      match stripTableName (rest.dropWhile isPySpace) with
      | some (table, afterDot) =>
          (lazyKeySplit afterDot).map fun key => (table, key.asString)
      | none => none
  | _ => none

/-- `raw.replace('\\"', '"')`: left-to-right, non-overlapping. -/
def replaceEscapedQuote : List Char → List Char
  | '\\' :: '"' :: rest => '"' :: replaceEscapedQuote rest
  | c :: rest => c :: replaceEscapedQuote rest
  | [] => []

/-- `normalize_key` inside `_toggle_codex_mcp`: strip whitespace, and peel a
surrounding pair of double quotes (unescaping `\"`). -/
def normalizeKey (raw : String) : String :=
  let r := (pyStrip raw).data
  if 2 ≤ r.length && r.head? == some '"' && r.getLast? == some '"' then
    (replaceEscapedQuote (r.drop 1 |>.dropLast)).asString
  else r.asString

/-- The match-collection loop of `_toggle_codex_mcp` (toggles.py lines
149-156): every line whose header key normalizes to `mcp_name`, with its
index and table. -/
def codexMatches (lines : List String) (mcpName : String) :
    List (Nat × String × String) :=
  lines.enum.filterMap fun p =>
    match headerMatch p.2 with
    | some (table, rawKey) =>
        if normalizeKey rawKey == mcpName then some (p.1, table, rawKey) else none
    | none => none

/-- `re.sub(r"\[\s*mcp_servers(?:_disabled)?\.", f"[{new_table}.", line)`:
left-to-right, non-overlapping global replacement.  `fuel` bounds the scan
(one unit per character position). -/
def subTableHeaderAux (newTable : String) : Nat → List Char → List Char
  | 0, cs => cs
  | _ + 1, [] => []
  | fuel + 1, c :: rest =>
      if c == '[' then
        match stripTableName (rest.dropWhile isPySpace) with
        | some (_, afterDot) =>
            ('[' :: newTable.data ++ ['.']) ++ subTableHeaderAux newTable fuel afterDot
        | none => c :: subTableHeaderAux newTable fuel rest
      else c :: subTableHeaderAux newTable fuel rest

def subTableHeaderLine (newTable : String) (line : String) : String :=
  (subTableHeaderAux newTable line.data.length line.data).asString

/-- `_toggle_codex_mcp` (toggles.py lines 132-172) on the config file's
`splitlines(keepends=True)` lines (the missing-file check happens before
the text is read and is outside this model): collect all matching header
lines; fail unless there is exactly one; fail if the entry is already in
the requested state; otherwise rewrite just the matched line, renaming its
table. -/
def toggle_codex_mcp (lines : List String) (mcpName : String) (enable : Bool) :
    Except String (List String) :=
  match codexMatches lines mcpName with
  | [(idx, table, _)] =>
      if enable && table == "mcp_servers" then
        .error ("Codex MCP '" ++ mcpName ++ "' is already enabled.")
      else if !enable && table == "mcp_servers_disabled" then
        .error ("Codex MCP '" ++ mcpName ++ "' is already disabled.")
      else
        let newTable := if enable then "mcp_servers" else "mcp_servers_disabled"
        .ok (lines.set idx (subTableHeaderLine newTable (lines.getD idx "")))
  | ms =>
      .error ("Expected exactly one MCP table for '" ++ mcpName ++ "', found " ++
        toString ms.length ++ ".")

/-- A JSON document as handled by `json.loads`/`json.dumps` in
`_toggle_claude_mcp_json`.  Numbers are modelled as integers: the MCP
config documents this code rewrites contain no float literals. -/
inductive Json where
  | null
  | bool (b : Bool)
  | num (n : Int)
  | str (s : String)
  | arr (xs : List Json)
  | obj (fields : List (String × Json))

/-- Python dict lookup on an insertion-ordered mapping. -/
def objGet (fs : List (String × Json)) (k : String) : Option Json :=
  (fs.find? fun p => p.1 == k).map (·.2)

/-- Python dict assignment: an existing key keeps its insertion position and
gets the new value; a new key is appended. -/
def objSet (fs : List (String × Json)) (k : String) (v : Json) :
    List (String × Json) :=
  if fs.any (fun p => p.1 == k) then
    fs.map fun p => if p.1 == k then (k, v) else p
  else fs ++ [(k, v)]

/-- The `if not isinstance(x, dict): x = {}` coercion in
`_move_mcp_entry_in_dict`. -/
def asDictFields : Option Json → List (String × Json)
  | some (Json.obj fs) => fs
  | _ => []

/-- `_move_mcp_entry_in_dict` (toggles.py lines 210-233): read the
`mcpServers` / `mcpServersDisabled` collections (treating anything that is
not a dict as empty); if the entry is missing from the source collection
report `False`; otherwise pop it from the source, assign it into the
destination, write both collections back and report `True`. -/
def move_mcp_entry_in_dict (container : List (String × Json)) (mcpName : String)
    (enable : Bool) : List (String × Json) × Bool :=
  let enabled := asDictFields (objGet container "mcpServers")
  let disabled := asDictFields (objGet container "mcpServersDisabled")
  let src := if enable then disabled else enabled
  match objGet src mcpName with
  | Option.none => (container, false)
  | Option.some v =>
      let srcRemoved := src.filter fun p => p.1 != mcpName
      let dst := if enable then enabled else disabled
      let dstAdded := objSet dst mcpName v
      let enabledNew := if enable then dstAdded else srcRemoved
      let disabledNew := if enable then srcRemoved else dstAdded
      (objSet (objSet container "mcpServers" (Json.obj enabledNew))
         "mcpServersDisabled" (Json.obj disabledNew), true)

/-- The document-level part of `_toggle_claude_mcp_json` (toggles.py lines
196-203): move at the top level, then in every project config under
`projects` that is a dict, OR-ing the per-container change flags. -/
def toggleClaudeDocFields (fields : List (String × Json)) (mcpName : String)
    (enable : Bool) : List (String × Json) × Bool :=
  let r1 := move_mcp_entry_in_dict fields mcpName enable
  match objGet r1.1 "projects" with
  | Option.some (Json.obj projs) =>
      let step := projs.map fun p =>
        match p.2 with
        | Json.obj cfg =>
            let r := move_mcp_entry_in_dict cfg mcpName enable
            ((p.1, Json.obj r.1), r.2)
        | v => ((p.1, v), false)
      (objSet r1.1 "projects" (Json.obj (step.map (·.1))),
       r1.2 || step.any (·.2))
  | _ => r1

/-- JSON string escaping as `json.dumps` performs it on the ASCII strings
occurring here (`ensure_ascii` escaping of non-ASCII is not modelled). -/
def jsonEscapeChar (c : Char) : List Char :=
  if c == '"' then ['\\', '"']
  else if c == '\\' then ['\\', '\\']
  else if c == '\n' then ['\\', 'n']
  else if c == '\t' then ['\\', 't']
  else if c == '\r' then ['\\', 'r']
  else [c]

def jsonQuote (s : String) : String :=
  "\"" ++ (s.data.flatMap jsonEscapeChar).asString ++ "\""

def jsonIndent (level : Nat) : String :=
  String.mk (List.replicate (2 * level) ' ')

mutual

/-- `json.dumps(value, indent=2, sort_keys=False)` at nesting depth
`level`: with an indent, the item separator is `",\n"` and the key
separator `": "`; empty containers print without inner newlines. -/
def jsonDumpsAux : Nat → Json → String
  | _, Json.null => "null"
  | _, Json.bool true => "true"
  | _, Json.bool false => "false"
  | _, Json.num n => toString n
  | _, Json.str s => jsonQuote s
  | _, Json.arr [] => "[]"
  | level, Json.arr (x :: xs) =>
      "[\n" ++ String.intercalate ",\n" (jsonDumpsList (level + 1) (x :: xs)) ++
        "\n" ++ jsonIndent level ++ "]"
  | _, Json.obj [] => "\x7b\x7d"
  | level, Json.obj (f :: fs) =>
      "\x7b\n" ++ String.intercalate ",\n" (jsonDumpsFields (level + 1) (f :: fs)) ++
        "\n" ++ jsonIndent level ++ "\x7d"

def jsonDumpsList : Nat → List Json → List String
  | _, [] => []
  | level, x :: xs => (jsonIndent level ++ jsonDumpsAux level x) :: jsonDumpsList level xs

def jsonDumpsFields : Nat → List (String × Json) → List String
  | _, [] => []
  | level, (k, v) :: fs =>
      (jsonIndent level ++ jsonQuote k ++ ": " ++ jsonDumpsAux level v) ::
        jsonDumpsFields level fs

end

def jsonDumps (j : Json) : String := jsonDumpsAux 0 j

/-- JSON insignificant whitespace. -/
def jsonWs (cs : List Char) : List Char :=
  cs.dropWhile fun c => c == ' ' || c == '\t' || c == '\n' || c == '\r'

/-- A string-literal escape (`\uXXXX` escapes are not modelled; the
documents here contain none). -/
def jsonUnescape (c : Char) : Option Char :=
  List.lookup c
    [('"', '"'), ('\\', '\\'), ('/', '/'), ('n', '\n'),
     ('t', '\t'), ('r', '\r'), ('b', '\x08'), ('f', '\x0c')]

/-- The body of a JSON string literal, after the opening quote: the decoded
characters and the input after the closing quote. -/
def parseStrBody : List Char → Option (List Char × List Char)
  | [] => none
  | '"' :: rest => some ([], rest)
  | '\\' :: e :: rest =>
      (jsonUnescape e).bind fun c =>
        (parseStrBody rest).map fun r => (c :: r.1, r.2)
  | c :: rest => (parseStrBody rest).map fun r => (c :: r.1, r.2)

/-- An integer literal (float syntax is rejected, see `Json`). -/
def parseIntLit (cs : List Char) : Option (Int × List Char) :=
  let (neg, cs1) := match cs with
    | '-' :: rest => (true, rest)
    | _ => (false, cs)
  let digits := cs1.takeWhile Char.isDigit
  let rest := cs1.dropWhile Char.isDigit
  if digits.isEmpty then none
  else
    match rest with
    | '.' :: _ => none
    | 'e' :: _ => none
    | 'E' :: _ => none
    | _ =>
        let v : Int := digits.foldl (fun a c => a * 10 + (c.toNat - 48 : Int)) 0
        some (if neg then -v else v, rest)

mutual

/-- `json.loads`, modelled as a fuel-bounded recursive-descent parser over
the document's characters (fuel: one unit per nested construct, so the
input length is always enough).  The keyword literals `null`, `true`,
`false` are recognized as prefixes. -/
def parseValue : Nat → List Char → Option (Json × List Char)
  | 0, _ => none
  | fuel + 1, cs =>
      let trimmed := jsonWs cs
      if List.isPrefixOf "null".data trimmed then
        some (Json.null, trimmed.drop 4)
      else if List.isPrefixOf "true".data trimmed then
        some (Json.bool true, trimmed.drop 4)
      else if List.isPrefixOf "false".data trimmed then
        some (Json.bool false, trimmed.drop 5)
      else
        match trimmed with
        | '"' :: rest =>
            (parseStrBody rest).map fun r => (Json.str r.1.asString, r.2)
        | '\x7b' :: rest =>
            (parseObjRest fuel true [] rest).map fun r => (Json.obj r.1, r.2)
        | '[' :: rest =>
            (parseArrRest fuel true [] rest).map fun r => (Json.arr r.1, r.2)
        | cs' => (parseIntLit cs').map fun r => (Json.num r.1, r.2)

/-- The members of an object, after `\x7b` (or after a comma); duplicate
keys follow Python `dict` semantics via `objSet`. -/
def parseObjRest : Nat → Bool → List (String × Json) → List Char →
    Option (List (String × Json) × List Char)
  | 0, _, _, _ => none
  | fuel + 1, first, acc, cs =>
      match first, jsonWs cs with
      | true, '\x7d' :: rest => some (acc, rest)
      | _, cs' =>
          match cs' with
          | '"' :: rest =>
              (parseStrBody rest).bind fun k =>
                match jsonWs k.2 with
                | ':' :: afterColon =>
                    (parseValue fuel afterColon).bind fun v =>
                      let acc' := objSet acc k.1.asString v.1
                      match jsonWs v.2 with
                      | ',' :: rest2 => parseObjRest fuel false acc' rest2
                      | '\x7d' :: rest2 => some (acc', rest2)
                      | _ => none
                | _ => none
          | _ => none

/-- The items of an array, after `[` (or after a comma). -/
def parseArrRest : Nat → Bool → List Json → List Char →
    Option (List Json × List Char)
  | 0, _, _, _ => none
  | fuel + 1, first, acc, cs =>
      match first, jsonWs cs with
      | true, ']' :: rest => some (acc.reverse, rest)
      | _, cs' =>
          (parseValue fuel cs').bind fun v =>
            match jsonWs v.2 with
            | ',' :: rest2 => parseArrRest fuel false (v.1 :: acc) rest2
            | ']' :: rest2 => some ((v.1 :: acc).reverse, rest2)
            | _ => none

end

def jsonLoads (s : String) : Option Json :=
  (parseValue (s.length + 1) s.data).bind fun r =>
    if (jsonWs r.2).isEmpty then some r.1 else none

/-- `_toggle_claude_mcp_json` (toggles.py lines 187-207) on one config
file's contents (`Option.none` = the path does not exist, in which case the
function returns `False` untouched).  An empty file parses as `{}` via
`read_text() or "{}"`; unparsable JSON raises `ToggleError`; a parsable
top-level value that is not an object raises `AttributeError` on
`data.get`, modelled as an error as well.  On a change the file is
rewritten as `json.dumps(data, indent=2, sort_keys=False) + "\n"`;
otherwise it is left untouched. -/
def toggle_claude_mcp_json (fileText : Option String) (mcpName : String)
    (enable : Bool) : Except String (Option String × Bool) :=
  match fileText with
  | Option.none => .ok (Option.none, false)
  | Option.some text =>
      let effective := if text.data.isEmpty then "\x7b\x7d" else text
      match jsonLoads effective with
      | Option.none => .error "Invalid JSON"
      | Option.some (Json.obj fields) =>
          let r := toggleClaudeDocFields fields mcpName enable
          if r.2 then .ok (Option.some (jsonDumps (Json.obj r.1) ++ "\n"), true)
          else .ok (Option.some text, false)
      | Option.some _ => .error "AttributeError"

/-- `_toggle_claude_mcp_configs` (toggles.py lines 175-184): run the
per-file toggle on `~/.claude.json` and then on the legacy
`~/.claude/mcp.json`, OR-ing the change flags; both rewritten contents are
returned.  (`toggle_component` raises `ToggleError` when the combined flag
is `false`.) -/
def toggle_claude_mcp_configs (primary legacy : Option String) (mcpName : String)
    (enable : Bool) : Except String (Option String × Option String × Bool) :=
  match toggle_claude_mcp_json primary mcpName enable with
  | .error e => .error e
  | .ok (p', c1) =>
      match toggle_claude_mcp_json legacy mcpName enable with
      | .error e => .error e
      | .ok (l', c2) => .ok (p', l', c1 || c2)

/-- C7: for an identity with no catalog entry, `track_invocation` is a
silent no-op — it raises nothing, inserts no invocation row, and leaves the
store unchanged; in particular three successive trackings of an unknown
identity leave the stored invocation rows untouched. -/
theorem track_invocation_unknown_identity_noop (db : DB) (p n tp : String)
    (t1 t2 t3 : Nat) (s1 s2 s3 : String) (d1 d2 d3 : Option Int)
    (b1 b2 b3 : Bool) (e1 e2 e3 : Option String)
    (h : ∀ r ∈ db.components, sameIdentity p n tp r = false) :
    track_invocation t3
        (track_invocation t2
          (track_invocation t1 db p n tp s1 d1 b1 e1) p n tp s2 d2 b2 e2)
        p n tp s3 d3 b3 e3 = db ∧
    (track_invocation t1 db p n tp s1 d1 b1 e1).invocations = db.invocations := by
  have hnone : db.components.find? (sameIdentity p n tp) = none :=
    List.find?_eq_none.mpr fun x hx => by simp [h x hx]
  have step : ∀ t s d b e, track_invocation t db p n tp s d b e = db := by
    intro t s d b e
    simp [track_invocation, hnone]
  refine ⟨?_, by rw [step]⟩
  rw [step, step, step]

/-- A store holding only one unrelated skill entry (C7 witness input). -/
def skillOnlyDb : DB :=
  { components := [⟨0, "claude", "y", "skill", "official", "active",
      Option.none, "/s", 0, 0, "m"⟩]
    events := []
    invocations := []
    fts := []
    nextId := 1 }

/-- C7 witness: tracking an unknown MCP identity three times leaves the
store untouched. -/
theorem track_invocation_unknown_identity_noop_witness :
    (∀ r ∈ skillOnlyDb.components, sameIdentity "claude" "x" "mcp" r = false) ∧
    track_invocation 3
        (track_invocation 2
          (track_invocation 1 skillOnlyDb "claude" "x" "mcp" "s1" (Option.some 5)
            true Option.none)
          "claude" "x" "mcp" "s2" (Option.some 6) false (Option.some "e"))
        "claude" "x" "mcp" "s3" Option.none true Option.none = skillOnlyDb :=
  ⟨by decide,
   (track_invocation_unknown_identity_noop skillOnlyDb "claude" "x" "mcp" 1 2 3
      "s1" "s2" "s3" (Option.some 5) (Option.some 6) Option.none true false true
      Option.none (Option.some "e") Option.none (by decide)).1⟩

/-- C9: when the identity already exists, the upsert rewrites exactly the
row with the found id, overwriting only the `origin`, `status`, `version`,
`install_path`, `last_seen` and `metadata_json` columns (the `id`,
identity columns and `first_seen` are not in the `SET` list), leaves the id
counter alone, and every row of the result keeps its original id, identity
and `first_seen`. -/
theorem upsert_existing_overwrites_only_mutable (now : Nat) (db : DB)
    (c : Component) (r : Row)
    (hfind : db.components.find? (sameIdentity c.platform c.name c.type) = some r) :
    (upsertComponent now db c).components =
      db.components.map (fun x =>
        if x.id == r.id then
          { x with origin := c.origin, status := c.status, version := c.version,
                   installPath := c.installPath, lastSeen := now,
                   metadataJson := c.metadataJson }
        else x) ∧
    (upsertComponent now db c).nextId = db.nextId ∧
    ∀ x ∈ (upsertComponent now db c).components, ∃ y ∈ db.components,
      x.id = y.id ∧ x.firstSeen = y.firstSeen ∧ x.platform = y.platform ∧
      x.name = y.name ∧ x.type = y.type := by
  refine ⟨by simp [upsertComponent, hfind], by simp [upsertComponent, hfind], ?_⟩
  intro x hx
  simp only [upsertComponent, hfind, List.mem_map] at hx
  obtain ⟨y, hy, hxy⟩ := hx
  refine ⟨y, hy, ?_⟩
  by_cases hid : (y.id == r.id) = true <;> simp [hid] at hxy <;> subst hxy <;> simp

/-- Concrete inputs for the C9 witness: a one-row store and a rescanned
component with the same identity but changed mutable attributes. -/
def mcpRowDb : DB :=
  { components := [⟨7, "claude", "x", "mcp", "external", "active", Option.none,
      "/p", 3, 3, "m"⟩]
    events := []
    invocations := []
    fts := []
    nextId := 8 }

def rescannedMcp : Component :=
  ⟨"claude", "x", "mcp", "local", "disabled", Option.some "1", "/q", "m2", "d"⟩

/-- C9 witness: the upsert overwrites only the mutable columns of the
matched row, keeping `id = 7` and `first_seen = 3`. -/
theorem upsert_existing_overwrites_only_mutable_witness :
    (mcpRowDb.components.find? (sameIdentity "claude" "x" "mcp") =
      some ⟨7, "claude", "x", "mcp", "external", "active", Option.none, "/p", 3, 3, "m"⟩) ∧
    (upsertComponent 9 mcpRowDb rescannedMcp).components =
      [⟨7, "claude", "x", "mcp", "local", "disabled", Option.some "1", "/q", 3, 9, "m2"⟩] := by
  refine ⟨by decide, ?_⟩
  have h := (upsert_existing_overwrites_only_mutable 9 mcpRowDb rescannedMcp
    ⟨7, "claude", "x", "mcp", "external", "active", Option.none, "/p", 3, 3, "m"⟩
    (by decide)).1
  rw [h]
  decide

/-- C3 counterexample: under the secret-shaped key `API_TOKEN`,
`_redact_env_vars` returns the placeholder value `${HOME}` unchanged — the
key-based always-redact rule does not hold for this redaction function. -/
theorem redact_env_ignores_key_counterexample :
    redact_env_vars [("API_TOKEN", PyVal.str "${HOME}")] =
      [("API_TOKEN", PyVal.str "${HOME}")] ∧
    sensitiveKey "API_TOKEN" = true ∧
    PyVal.str "${HOME}" = PyVal.str "${HOME}" :=
  ⟨rfl, by decide, rfl⟩

/-- C3 (amended): the key-based rule holds in `_redact_extra_config` — any
string value under a key containing a secret-shaped token becomes the
constant `"<redacted>"` regardless of its shape — while `_redact_env_vars`
never consults the key and passes placeholder-syntax and path-like string
values through verbatim. -/
theorem redact_key_rule_only_in_extra_config (key s : String)
    (hk : sensitiveKey key = true) :
    redact_extra_config key (PyVal.str s) = PyVal.str "<redacted>" ∧
    ∀ s', (isPlaceholder s' || isPathLike s') = true →
      redactEnvValue (PyVal.str s') = PyVal.str s' := by
  constructor
  · simp [redact_extra_config, hk]
  · intro s' h'
    cases hp : isPlaceholder s' with
    | true => simp [redactEnvValue, hp]
    | false =>
        have hpath : isPathLike s' = true := by simpa [hp] using h'
        simp [redactEnvValue, hp, hpath]

/-- C3 witness: the key `API_TOKEN` forces redaction of a path-like value
in `_redact_extra_config`, and a placeholder survives `_redact_env_vars`. -/
theorem redact_key_rule_only_in_extra_config_witness :
    sensitiveKey "API_TOKEN" = true ∧
    redact_extra_config "API_TOKEN" (PyVal.str "/etc/hosts") =
      PyVal.str "<redacted>" ∧
    redactEnvValue (PyVal.str "${HOME}") = PyVal.str "${HOME}" := by
  have h := redact_key_rule_only_in_extra_config "API_TOKEN" "/etc/hosts" (by decide)
  exact ⟨by decide, h.1, h.2 "${HOME}" (by decide)⟩

/-- The fixed on-disk outcome used by the C5 counterexample: the skills and
plugins scanners both raise; the others succeed with empty lists. -/
def twoFailuresOutcome : Fin 6 → ScanOutcome Nat := fun i =>
  if i.val = 0 then .err "boom-skills"
  else if i.val = 1 then .err "boom-plugins"
  else .ok []

/-- C5 counterexample: with two failing scanners, the thread-completion
order `[plugins, skills, …]` is a legitimate schedule of the six submitted
tasks, and the parallel scan's shared error list comes out in a different
order than the sequential scan's, so the two `ScanResult`s are not
byte-identical. -/
theorem scan_parallel_error_order_counterexample :
    ([1, 0, 2, 3, 4, 5] : List (Fin 6)).Perm (List.finRange 6) ∧
    scan_parallel [1, 0, 2, 3, 4, 5] twoFailuresOutcome ≠
      scan_sequential twoFailuresOutcome := by
  constructor
  · decide
  · intro h
    have := congrArg ScanResultM.errors h
    simp [scan_parallel, scan_sequential, twoFailuresOutcome, safeScanError,
      List.finRange, scannerNames] at this

/-- C5 (amended): for every fixed on-disk outcome and every
thread-completion schedule, the parallel scan agrees with the sequential
scan on all six component sequences, and its error list is a permutation of
the sequential one (equal as multisets; the order is the only possible
difference). -/
theorem scan_parallel_refines_sequential {α : Type} (outcomes : Fin 6 → ScanOutcome α)
    (schedule : List (Fin 6)) (h : schedule.Perm (List.finRange 6)) :
    (scan_parallel schedule outcomes).skills = (scan_sequential outcomes).skills ∧
    (scan_parallel schedule outcomes).plugins = (scan_sequential outcomes).plugins ∧
    (scan_parallel schedule outcomes).commands = (scan_sequential outcomes).commands ∧
    (scan_parallel schedule outcomes).hooks = (scan_sequential outcomes).hooks ∧
    (scan_parallel schedule outcomes).mcps = (scan_sequential outcomes).mcps ∧
    (scan_parallel schedule outcomes).binaries = (scan_sequential outcomes).binaries ∧
    (scan_parallel schedule outcomes).errors.Perm (scan_sequential outcomes).errors :=
  ⟨rfl, rfl, rfl, rfl, rfl, rfl, h.filterMap _⟩

/-- C5 witness: the refinement applied to the counterexample's outcome and
schedule — the component lists agree and the error lists are mutual
permutations. -/
theorem scan_parallel_refines_sequential_witness :
    ([1, 0, 2, 3, 4, 5] : List (Fin 6)).Perm (List.finRange 6) ∧
    (scan_parallel [1, 0, 2, 3, 4, 5] twoFailuresOutcome).errors.Perm
      (scan_sequential twoFailuresOutcome).errors :=
  ⟨by decide,
   (scan_parallel_refines_sequential twoFailuresOutcome [1, 0, 2, 3, 4, 5]
      (by decide)).2.2.2.2.2.2⟩

/-- A store with one MCP entry whose only in-window invocation has
`duration_ms = 0` (C8 counterexample input). -/
def zeroDurationDb : DB :=
  { components := [⟨0, "claude", "x", "mcp", "external", "active", Option.none,
      "/p", 0, 0, "m"⟩]
    events := []
    invocations := [⟨0, "s", 5, Option.some 0, true, Option.none⟩]
    fts := []
    nextId := 1 }

/-- C8 counterexample: the entry has exactly one in-window duration, `0`,
so the claimed formula picks index `round(0.95 × 0) = 0` of `[0]` and
reports `0`; the code drops the falsy duration in
`[... if r["duration_ms"]]` and reports no p95 at all. -/
theorem p95_zero_duration_counterexample :
    get_component_usage_p95 zeroDurationDb "claude" "x" "mcp" 0 = Option.none ∧
    specP95 ((windowRows zeroDurationDb 0 0).filterMap (·.durationMs)) =
      Option.some 0 ∧
    get_component_usage_p95 zeroDurationDb "claude" "x" "mcp" 0 ≠
      specP95 ((windowRows zeroDurationDb 0 0).filterMap (·.durationMs)) :=
  ⟨by decide, by decide, by decide⟩

/-- C8 (amended): the reported p95 is the claimed sort-and-index formula
applied to the entry's *non-null, non-zero* in-window durations – when only
zero (or no) durations exist the p95 is absent rather than `0`. -/
theorem p95_over_positive_durations (db : DB) (p n tp : String) (cutoff : Nat)
    (r : Row)
    (hfind : db.components.find? (sameIdentity p n tp) = some r) :
    get_component_usage_p95 db p n tp cutoff =
      specP95 (((windowRows db r.id cutoff).filterMap (·.durationMs)).filter
        (fun d => d != 0)) := by
  simp only [get_component_usage_p95, hfind, specP95]
  generalize List.filterMap (fun x => x.durationMs) (windowRows db r.id cutoff) = raw
  have hkey : (raw.insertionSort (· ≤ ·)).filter (fun d => d != 0) =
      (raw.filter (fun d => d != 0)).insertionSort (· ≤ ·) := by
    refine @List.eq_of_perm_of_sorted ℤ (· ≤ ·) ?_ _ _ ?_ ?_ ?_
    · infer_instance
    · exact ((List.perm_insertionSort _ raw).filter _).trans
        (List.perm_insertionSort _ _).symm
    · exact (List.sorted_insertionSort _ raw).filter _
    · exact List.sorted_insertionSort _ _
  rw [hkey]
  have hl : ((raw.filter (fun d => d != 0)).insertionSort (· ≤ ·)).length =
      (raw.filter (fun d => d != 0)).length :=
    (List.perm_insertionSort _ _).length_eq
  by_cases hF : raw.filter (fun d => d != 0) = []
  · simp [hF]
  · have h1 : (raw.filter (fun d => d != 0)).insertionSort (· ≤ ·) ≠ [] := by
      intro h
      apply hF
      rw [← List.length_eq_zero, ← hl, h, List.length_nil]
    simp [List.isEmpty_iff, hF, h1, hl]

/-- A store whose entry has in-window durations `0`, `20`, `10`
(C8 witness input). -/
def mixedDurationsDb : DB :=
  { components := [⟨0, "claude", "x", "mcp", "external", "active", Option.none,
      "/p", 0, 0, "m"⟩]
    events := []
    invocations := [⟨0, "s", 5, Option.some 0, true, Option.none⟩,
      ⟨0, "s", 6, Option.some 20, true, Option.none⟩,
      ⟨0, "s2", 7, Option.some 10, true, Option.none⟩]
    fts := []
    nextId := 1 }

/-- Helper for C6: the migration's row-copy loop succeeds and appends the
`platform`-defaulted copies, provided the accumulated rows are on platform
`claude` and no id or `(name, type)` identity collides. -/
theorem copyOldRows_go (olds : List OldRow) :
    ∀ acc : List Row,
    (∀ r ∈ acc, r.platform = "claude") →
    (∀ o ∈ olds, ∀ r ∈ acc, r.id ≠ o.id) →
    (∀ o ∈ olds, ∀ r ∈ acc, ¬ (r.name = o.name ∧ r.type = o.type)) →
    ((olds.map fun o => (o.name, o.type)).Nodup) →
    ((olds.map (·.id)).Nodup) →
    List.foldlM (fun acc o => insertComponentRow acc (oldRowToNew o)) acc olds =
      some (acc ++ olds.map oldRowToNew) := by
  induction olds with
  | nil => intro acc _ _ _ _ _; simp [List.foldlM]
  | cons o os ih =>
      intro acc hplat hidd hnkd hnk hid
      have hstep : insertComponentRow acc (oldRowToNew o) =
          some (acc ++ [oldRowToNew o]) := by
        have h1 : acc.any (fun x => x.id == (oldRowToNew o).id) = false := by
          simp only [List.any_eq_false]
          intro r hr
          simp [oldRowToNew, hidd o (List.mem_cons_self o os) r hr]
        have h2 : acc.any (sameIdentity (oldRowToNew o).platform
            (oldRowToNew o).name (oldRowToNew o).type) = false := by
          simp only [List.any_eq_false]
          intro r hr
          have := hnkd o (List.mem_cons_self o os) r hr
          simp only [sameIdentity, oldRowToNew, Bool.and_eq_true, beq_iff_eq]
          intro hcontra
          exact this ⟨hcontra.1.2, hcontra.2⟩
        simp [insertComponentRow, h1, h2]
      rw [List.foldlM_cons, hstep]
      simp only [Option.bind_eq_bind, Option.some_bind]
      have := ih (acc ++ [oldRowToNew o])
        (by
          intro r hr
          rcases List.mem_append.mp hr with h | h
          · exact hplat r h
          · simp only [List.mem_singleton] at h
            subst h
            rfl)
        (by
          intro o' ho' r hr
          rcases List.mem_append.mp hr with h | h
          · exact hidd o' (List.mem_cons_of_mem o ho') r h
          · simp only [List.mem_singleton] at h
            subst h
            simp only [oldRowToNew]
            intro hcontra
            have hmem : o'.id ∈ os.map (·.id) := List.mem_map_of_mem _ ho'
            rw [List.map_cons] at hid
            exact (List.nodup_cons.mp hid).1 (hcontra ▸ hmem))
        (by
          intro o' ho' r hr
          rcases List.mem_append.mp hr with h | h
          · exact hnkd o' (List.mem_cons_of_mem o ho') r h
          · simp only [List.mem_singleton] at h
            subst h
            simp only [oldRowToNew]
            intro hcontra
            have hmem : (o'.name, o'.type) ∈ os.map (fun o => (o.name, o.type)) :=
              List.mem_map_of_mem _ ho'
            rw [List.map_cons] at hnk
            apply (List.nodup_cons.mp hnk).1
            have : (o.name, o.type) = (o'.name, o'.type) := by
              rw [hcontra.1, hcontra.2]
            rw [this]
            exact hmem)
        (by rw [List.map_cons] at hnk; exact (List.nodup_cons.mp hnk).2)
        (by rw [List.map_cons] at hid; exact (List.nodup_cons.mp hid).2)
      rw [this]
      simp

/-- C6: opening a store whose `components` table predates the `platform`
column migrates it in place — the current-generation table holds exactly as
many rows as the old one, every copied row has `platform` defaulted to
`'claude'` (all other columns preserved by `oldRowToNew`), the FTS index is
rebuilt from exactly the surviving rows — and whenever any migration step
fails, the rollback leaves the pre-migration schema intact. -/
theorem migration_preserves_rows (getDesc : String → String) (olds : List OldRow)
    (fts0 : List FtsRow)
    (hnk : (olds.map fun o => (o.name, o.type)).Nodup)
    (hid : (olds.map (·.id)).Nodup) :
    migrate_components_add_platform getDesc olds fts0 =
      SchemaState.current (olds.map oldRowToNew)
        (rebuildFts getDesc (olds.map oldRowToNew)) ∧
    (olds.map oldRowToNew).length = olds.length ∧
    (∀ r ∈ olds.map oldRowToNew, r.platform = "claude") ∧
    (∀ olds' : List OldRow, ∀ fts' : List FtsRow,
      migrationSteps getDesc olds' = Option.none →
        migrate_components_add_platform getDesc olds' fts' =
          SchemaState.old olds' fts') := by
  have hcopy : copyOldRows olds = some (olds.map oldRowToNew) :=
    copyOldRows_go olds [] (by simp) (by simp) (by simp) hnk hid
  refine ⟨?_, by simp, ?_, ?_⟩
  · simp [migrate_components_add_platform, migrationSteps, hcopy]
  · intro r hr
    obtain ⟨o, _, ho⟩ := List.mem_map.mp hr
    subst ho
    rfl
  · intro olds' fts' hfail
    simp [migrate_components_add_platform, hfail]

/-- A two-row old-generation table (C6 witness input). -/
def oldTable : List OldRow :=
  [⟨1, "a", "skill", "official", "active", Option.none, "/a", 0, 1, "m1"⟩,
   ⟨2, "b", "mcp", "external", "disabled", Option.some "2", "/b", 0, 2, "m2"⟩]

/-- C6 witness: migrating the two-row table yields the current generation
with both rows copied, `platform` defaulted and the FTS index rebuilt. -/
theorem migration_preserves_rows_witness :
    ((oldTable.map fun o => (o.name, o.type)).Nodup ∧
      (oldTable.map (·.id)).Nodup) ∧
    migrate_components_add_platform (fun _ => "") oldTable [] =
      SchemaState.current (oldTable.map oldRowToNew)
        (rebuildFts (fun _ => "") (oldTable.map oldRowToNew)) :=
  ⟨⟨by decide, by decide⟩,
   (migration_preserves_rows (fun _ => "") oldTable [] (by decide) (by decide)).1⟩

/-- Reference form of the seen-set loop: keep a candidate exactly when its
name is neither in `seen` nor carried by an earlier kept candidate. -/
def dedupSeen (seen : List String) : List (String × β) → List (String × β)
  | [] => []
  | c :: cs =>
      if seen.contains c.1 then dedupSeen seen cs
      else c :: dedupSeen (c.1 :: seen) cs

/-- Helper for C10: the fold of `scanPhase` appends exactly the
`dedupSeen`-kept candidates. -/
theorem scanPhase_snd (l : List (String × β)) :
    ∀ seen out, (scanPhase (seen, out) l).2 = out ++ dedupSeen seen l := by
  induction l with
  | nil => intro seen out; simp [scanPhase, dedupSeen]
  | cons c cs ih =>
      intro seen out
      by_cases h : seen.contains c.1
      · simp only [scanPhase, List.foldl_cons, h, if_pos, dedupSeen]
        exact ih seen out
      · simp only [scanPhase, List.foldl_cons, h, if_neg, dedupSeen, ite_false,
          Bool.false_eq_true, not_false_eq_true]
        rw [show (List.foldl _ (c.1 :: seen, out ++ [c]) cs) =
          scanPhase (c.1 :: seen, out ++ [c]) cs from rfl, ih]
        simp [dedupSeen, h]

/-- Helper for C10: the kept candidates have pairwise-distinct names, none
of them in `seen`. -/
theorem dedupSeen_nodup (l : List (String × β)) :
    ∀ seen, ((dedupSeen seen l).map Prod.fst).Nodup ∧
      ∀ n ∈ (dedupSeen seen l).map Prod.fst, seen.contains n = false := by
  induction l with
  | nil => intro seen; simp [dedupSeen]
  | cons c cs ih =>
      intro seen
      by_cases h : seen.contains c.1 = true
      · simp only [dedupSeen, if_pos h]
        exact ih seen
      · have hfalse : seen.contains c.1 = false := by simpa using h
        have ⟨ihn, ihs⟩ := ih (c.1 :: seen)
        simp only [dedupSeen, if_neg h]
        constructor
        · rw [List.map_cons, List.nodup_cons]
          refine ⟨fun hc => ?_, ihn⟩
          have := ihs c.1 hc
          rw [List.contains_cons] at this
          simp at this
        · intro n hn
          rw [List.map_cons, List.mem_cons] at hn
          rcases hn with hn | hn
          · exact hn ▸ hfalse
          · have := ihs n hn
            rw [List.contains_cons, Bool.or_eq_false_iff] at this
            exact this.2

/-- Helper for C10: for a name not yet seen, the first kept candidate is
the first candidate, so deduplication preserves first occurrences. -/
theorem dedupSeen_find (l : List (String × β)) :
    ∀ seen n, seen.contains n = false →
      (dedupSeen seen l).find? (fun p => p.1 == n) =
        l.find? (fun p => p.1 == n) := by
  induction l with
  | nil => intro seen n _; simp [dedupSeen]
  | cons c cs ih =>
      intro seen n hn
      by_cases h : seen.contains c.1 = true
      · have hne : (c.1 == n) = false := by
          cases heq : (c.1 == n) with
          | false => rfl
          | true =>
              have hcn : c.1 = n := by simpa using heq
              rw [hcn, hn] at h
              exact absurd h (by decide)
        simp only [dedupSeen, if_pos h]
        rw [List.find?_cons_of_neg _ (by simp [hne])]
        exact ih seen n hn
      · simp only [dedupSeen, if_neg h]
        cases heq : (c.1 == n) with
        | true =>
            rw [List.find?_cons_of_pos _ (by simp [heq]),
              List.find?_cons_of_pos _ (by simp [heq])]
        | false =>
            rw [List.find?_cons_of_neg _ (by simp [heq]),
              List.find?_cons_of_neg _ (by simp [heq])]
            apply ih (c.1 :: seen) n
            rw [List.contains_cons, Bool.or_eq_false_iff]
            have hcn : c.1 ≠ n := by simpa using heq
            exact ⟨beq_eq_false_iff_ne.mpr (Ne.symm hcn), hn⟩

/-- Helper for C10: every kept candidate is one of the candidates. -/
theorem dedupSeen_subset (l : List (String × β)) :
    ∀ seen, ∀ p ∈ dedupSeen seen l, p ∈ l := by
  induction l with
  | nil => intro seen p hp; simp [dedupSeen] at hp
  | cons c cs ih =>
      intro seen p hp
      by_cases h : seen.contains c.1
      · simp only [dedupSeen, h, if_pos] at hp
        exact List.mem_cons_of_mem c (ih seen p hp)
      · simp only [dedupSeen, h, ite_false, Bool.false_eq_true, List.mem_cons] at hp
        rcases hp with hp | hp
        · exact hp ▸ List.mem_cons_self c cs
        · exact List.mem_cons_of_mem c (ih (c.1 :: seen) p hp)

/-- Helper for C10: the whole scan equals one deduplicating pass over the
concatenated candidates in the fixed source order. -/
theorem mcp_scan_eq_dedup (s : McpSources β) :
    mcp_scan s = dedupSeen [] (candidateOrder s) := by
  have hphase : ∀ (a : List String × List (String × β)) l1 l2,
      scanPhase (scanPhase a l1) l2 = scanPhase a (l1 ++ l2) := by
    intro a l1 l2
    simp [scanPhase, List.foldl_append]
  obtain ⟨ua, ud, pa, pd, pl, la, ld, bi⟩ := s
  simp only [mcp_scan, candidateOrder, hphase]
  rw [show (scanPhase ([], [])
    (ua ++ ud ++ pa ++ pd ++ pl ++ la ++ ld ++ bi) : List String × List (String × β)).2 =
    [] ++ dedupSeen [] (ua ++ ud ++ pa ++ pd ++ pl ++ la ++ ld ++ bi) from
    scanPhase_snd _ [] []]
  simp [List.append_assoc]

/-- C10: the MCP scanner's output never repeats a name — for each name the
emitted record is exactly the first occurrence in the fixed source order
(user, project, plugin, legacy, built-in), every emitted record comes from
some source, and later same-named occurrences are dropped. -/
theorem mcp_scan_unique_names (s : McpSources β) :
    ((mcp_scan s).map Prod.fst).Nodup ∧
    (∀ n : String, (mcp_scan s).find? (fun p => p.1 == n) =
      (candidateOrder s).find? (fun p => p.1 == n)) ∧
    ∀ p ∈ mcp_scan s, p ∈ candidateOrder s := by
  rw [mcp_scan_eq_dedup]
  refine ⟨(dedupSeen_nodup _ []).1, ?_, ?_⟩
  · intro n
    exact dedupSeen_find _ [] n rfl
  · exact dedupSeen_subset _ []

/-- A Claude config document carrying the entry `x` in its disabled
collection (C2 counterexample input — present in *both* known documents). -/
def dupDisabledDoc : String :=
  "\x7b\"mcpServersDisabled\":\x7b\"x\":\x7b\x7d\x7d\x7d"

/-- What both documents become after the C2 counterexample toggle. -/
def dupMovedDoc : String :=
  "\x7b\n  \"mcpServersDisabled\": \x7b\x7d,\n  \"mcpServers\": \x7b\n    \"x\": \x7b\x7d\n  \x7d\n\x7d\n"

/-- C2 counterexample: the entry `x` matches in both known Claude config
documents, yet the toggle succeeds (`changed = true`, no ambiguity error)
and rewrites *both* documents. -/
theorem claude_toggle_two_documents_counterexample :
    toggle_claude_mcp_configs (some dupDisabledDoc) (some dupDisabledDoc) "x" true =
      .ok (some dupMovedDoc, some dupMovedDoc, true) ∧
    dupMovedDoc ≠ dupDisabledDoc :=
  ⟨rfl, by decide⟩

/-- C2 (amended): only the Codex TOML path enforces the exactly-one-match
rule — any match count other than one yields a `ToggleError` — while the
Claude JSON path never checks for ambiguity: whenever the first document
moves the entry, the combined toggle reports success regardless of what the
second document did (both rewritten documents are returned as produced). -/
theorem toggle_ambiguity_codex_only :
    (∀ lines : List String, ∀ name : String, ∀ enable : Bool,
      (codexMatches lines name).length ≠ 1 →
      ∃ e, toggle_codex_mcp lines name enable = .error e) ∧
    (∀ primary legacy : Option String, ∀ name : String, ∀ enable : Bool,
      ∀ pOut lOut : Option String, ∀ c2 : Bool,
      toggle_claude_mcp_json primary name enable = .ok (pOut, true) →
      toggle_claude_mcp_json legacy name enable = .ok (lOut, c2) →
      toggle_claude_mcp_configs primary legacy name enable =
        .ok (pOut, lOut, true)) := by
  constructor
  · intro lines name enable hlen
    match hm : codexMatches lines name with
    | [] => exact ⟨_, by rw [toggle_codex_mcp, hm]⟩
    | [(idx, table, raw)] => exact absurd (by simp [hm]) hlen
    | a :: b :: rest => exact ⟨_, by rw [toggle_codex_mcp, hm]⟩
  · intro primary legacy name enable pOut lOut c2 h1 h2
    simp [toggle_claude_mcp_configs, h1, h2]

/-- The ambiguous Codex config of the C2 witness: `x` appears as both an
active and a disabled table. -/
def ambiguousCodexLines : List String :=
  ["[mcp_servers.x]\n", "command = \"c\"\n", "[mcp_servers_disabled.x]\n"]

/-- C2 witness: on the ambiguous Codex config the toggle fails with an
error rather than picking one of the two matches. -/
theorem toggle_ambiguity_codex_only_witness :
    (codexMatches ambiguousCodexLines "x").length ≠ 1 ∧
    ∃ e, toggle_codex_mcp ambiguousCodexLines "x" true = .error e :=
  ⟨by decide, toggle_ambiguity_codex_only.1 ambiguousCodexLines "x" true (by decide)⟩

/-- C4 (amended): when a Codex TOML toggle succeeds, the rewritten document
is byte-for-byte the original except for the single matched header line
(whose table name is renamed); every other line is unchanged.  (The Claude
JSON path instead re-serializes the whole document; see the
counterexample.) -/
theorem codex_toggle_rewrites_single_line (lines : List String) (name : String)
    (enable : Bool) (out : List String)
    (hok : toggle_codex_mcp lines name enable = .ok out) :
    ∃ idx table raw, codexMatches lines name = [(idx, table, raw)] ∧
      idx < lines.length ∧
      out = lines.set idx
        (subTableHeaderLine (if enable then "mcp_servers" else "mcp_servers_disabled")
          (lines.getD idx "")) ∧
      ∀ j, j ≠ idx → out.getD j "" = lines.getD j "" := by
  match hm : codexMatches lines name with
  | [] => rw [toggle_codex_mcp, hm] at hok; exact absurd hok (by simp)
  | a :: b :: rest => rw [toggle_codex_mcp, hm] at hok; exact absurd hok (by simp)
  | [(idx, table, raw)] =>
      rw [toggle_codex_mcp, hm] at hok
      dsimp only at hok
      have hidx : idx < lines.length := by
        have hmem : (idx, table, raw) ∈ codexMatches lines name := by
          rw [hm]; exact List.mem_singleton.mpr rfl
        obtain ⟨p, hp, hf⟩ := List.mem_filterMap.mp hmem
        have hpidx : p.1 = idx := by
          rcases hh : headerMatch p.2 with _ | ⟨t, rk⟩ <;> rw [hh] at hf <;>
            dsimp only at hf
          · exact absurd hf (by simp)
          · by_cases hk : (normalizeKey rk == name) = true
            · rw [if_pos hk] at hf
              exact congrArg Prod.fst (Option.some.inj hf)
            · rw [if_neg hk] at hf
              exact absurd hf (by simp)
        exact hpidx ▸ List.fst_lt_of_mem_enum hp
      by_cases h1 : (enable && table == "mcp_servers") = true
      · rw [if_pos h1] at hok
        exact absurd hok (by simp)
      · rw [if_neg h1] at hok
        by_cases h2 : (!enable && table == "mcp_servers_disabled") = true
        · rw [if_pos h2] at hok
          exact absurd hok (by simp)
        · rw [if_neg h2] at hok
          have hout : out = lines.set idx
              (subTableHeaderLine
                (if enable then "mcp_servers" else "mcp_servers_disabled")
                (lines.getD idx "")) := (Except.ok.inj hok).symm
          refine ⟨idx, table, raw, rfl, hidx, hout, ?_⟩
          intro j hj
          rw [hout]
          simp [List.getD_eq_getElem?_getD, List.getElem?_set_ne (Ne.symm hj)]

/-- A Codex config whose entry `x` is active, used for the C4 witness. -/
def activeCodexLines : List String :=
  ["# top comment\n", "[mcp_servers.x]\n", "command = \"c\"\n"]

/-- C4 witness: disabling `x` rewrites exactly line 1 of the Codex config,
leaving the surrounding lines byte-identical. -/
theorem codex_toggle_rewrites_single_line_witness :
    toggle_codex_mcp activeCodexLines "x" false =
      .ok ["# top comment\n", "[mcp_servers_disabled.x]\n", "command = \"c\"\n"] ∧
    ∃ idx table raw, codexMatches activeCodexLines "x" = [(idx, table, raw)] ∧
      idx < activeCodexLines.length ∧
      ["# top comment\n", "[mcp_servers_disabled.x]\n", "command = \"c\"\n"] =
        activeCodexLines.set idx
          (subTableHeaderLine "mcp_servers_disabled" (activeCodexLines.getD idx "")) ∧
      ∀ j, j ≠ idx →
        (["# top comment\n", "[mcp_servers_disabled.x]\n", "command = \"c\"\n"] :
          List String).getD j "" = activeCodexLines.getD j "" :=
  ⟨by rfl,
   codex_toggle_rewrites_single_line activeCodexLines "x" false
     ["# top comment\n", "[mcp_servers_disabled.x]\n", "command = \"c\"\n"]
     (by rfl)⟩

/-- The compactly formatted Claude config of the C4 counterexample: two
entries, no whitespace. -/
def compactDoc : String :=
  "\x7b\"mcpServers\":\x7b\"x\":\x7b\x7d,\"other\":\x7b\x7d\x7d\x7d"

/-- What the C4 counterexample document becomes after disabling `x`. -/
def reformattedDoc : String :=
  "\x7b\n  \"mcpServers\": \x7b\n    \"other\": \x7b\x7d\n  \x7d,\n  \"mcpServersDisabled\": \x7b\n    \"x\": \x7b\x7d\n  \x7d\n\x7d\n"

/-- C4 counterexample: a successful Claude JSON toggle re-serializes the
whole document: the untouched entry `other`, stored as the bytes
`"other":{}`, no longer appears with those bytes afterwards — unrelated
formatting is not preserved. -/
theorem claude_toggle_reformats_counterexample :
    toggle_claude_mcp_json (some compactDoc) "x" false =
      .ok (some reformattedDoc, true) ∧
    containsSub compactDoc "\"other\":\x7b\x7d" = true ∧
    containsSub reformattedDoc "\"other\":\x7b\x7d" = false :=
  ⟨rfl, by decide, by decide⟩

/-- A scan result containing the same MCP record twice (C1 counterexample
input — two scanners can legitimately emit colliding identities). -/
def dupComponent : Component :=
  ⟨"claude", "x", "mcp", "external", "active", Option.none, "/p", "m", "d"⟩

/-- The store after upserting that duplicated scan result twice. -/
def dupTwiceDb : DB :=
  update_components 1 (update_components 0 DB.empty [dupComponent, dupComponent])
    [dupComponent, dupComponent]

/-- C1 counterexample: for the scan result `[c, c]` and the empty store,
two upserts leave one catalog entry, but its event log holds one
`installed` and *three* `updated` events — the second occurrence inside
each call already finds the entry present — refuting "exactly one
`updated` event" as quantified over every scan result and store. -/
theorem upsert_twice_duplicate_counterexample :
    (dupTwiceDb.components.filter (sameIdentity "claude" "x" "mcp")).length = 1 ∧
    (dupTwiceDb.events.filter (fun e => e.eventType == "installed")).length = 1 ∧
    (dupTwiceDb.events.filter (fun e => e.eventType == "updated")).length = 3 ∧
    ¬ ((dupTwiceDb.events.filter (fun e => e.eventType == "updated")).length = 1) := by
  decide

/-- The identity triple of a catalog row. -/
def rowIdent (r : Row) : String × String × String := (r.platform, r.name, r.type)

/-- The identity triple of a scanned component. -/
def compIdent (c : Component) : String × String × String := (c.platform, c.name, c.type)

theorem sameIdentity_iff (p n t : String) (r : Row) :
    sameIdentity p n t r = true ↔ r.platform = p ∧ r.name = n ∧ r.type = t := by
  simp [sameIdentity, and_assoc]

/-- The rows and `installed` events the first (all-fresh) upsert pass
appends, with ids counting up from `nid`. -/
def freshInserts (t : Nat) : Nat → List Component → List Row × List InstallEvent
  | _, [] => ([], [])
  | nid, c :: rest =>
      let r : Row := ⟨nid, c.platform, c.name, c.type, c.origin, c.status,
        c.version, c.installPath, t, t, c.metadataJson⟩
      let e : InstallEvent := ⟨nid, "installed", t, c.version, c.metadataJson⟩
      let tail := freshInserts t (nid + 1) rest
      (r :: tail.1, e :: tail.2)

theorem freshInserts_idents (t : Nat) (cs : List Component) :
    ∀ nid, ((freshInserts t nid cs).1).map rowIdent = cs.map compIdent := by
  induction cs with
  | nil => intro nid; rfl
  | cons c rest ih =>
      intro nid
      simp only [freshInserts, List.map_cons, ih (nid + 1)]
      rfl

theorem freshInserts_row_id_ge (t : Nat) (cs : List Component) :
    ∀ nid, ∀ r ∈ (freshInserts t nid cs).1, nid ≤ r.id := by
  induction cs with
  | nil => intro nid r hr; simp [freshInserts] at hr
  | cons c rest ih =>
      intro nid r hr
      simp only [freshInserts, List.mem_cons] at hr
      rcases hr with hr | hr
      · subst hr; exact Nat.le_refl nid
      · exact Nat.le_of_succ_le (ih (nid + 1) r hr)

theorem freshInserts_event_shape (t : Nat) (cs : List Component) :
    ∀ nid, ∀ e ∈ (freshInserts t nid cs).2,
      e.eventType = "installed" ∧ nid ≤ e.componentId := by
  induction cs with
  | nil => intro nid e he; simp [freshInserts] at he
  | cons c rest ih =>
      intro nid e he
      simp only [freshInserts, List.mem_cons] at he
      rcases he with he | he
      · subst he; exact ⟨rfl, Nat.le_refl nid⟩
      · exact ⟨(ih (nid + 1) e he).1,
          Nat.le_of_succ_le (ih (nid + 1) e he).2⟩

theorem sameIdentity_of_ident_eq {r₁ r₂ : Row} (h : rowIdent r₁ = rowIdent r₂)
    (p n t : String) : sameIdentity p n t r₁ = sameIdentity p n t r₂ := by
  have h1 : r₁.platform = r₂.platform := congrArg Prod.fst h
  have h2 : r₁.name = r₂.name := congrArg (fun x => x.2.1) h
  have h3 : r₁.type = r₂.type := congrArg (fun x => x.2.2) h
  simp [sameIdentity, h1, h2, h3]

/-- Helper for C1: rows agreeing pointwise on id and identity give the same
identity-keyed `find?` id and `filter` length. -/
theorem find?_filter_of_proj_eq (l₁ : List Row) :
    ∀ l₂ : List Row,
    l₂.map (fun r => (r.id, rowIdent r)) = l₁.map (fun r => (r.id, rowIdent r)) →
    ∀ p n t : String,
      ((l₂.find? (sameIdentity p n t)).map (·.id)) =
        ((l₁.find? (sameIdentity p n t)).map (·.id)) ∧
      (l₂.filter (sameIdentity p n t)).length =
        (l₁.filter (sameIdentity p n t)).length := by
  induction l₁ with
  | nil =>
      intro l₂ hproj p n t
      have h2 : l₂ = [] := by simpa using hproj
      subst h2
      exact ⟨rfl, rfl⟩
  | cons a₁ tl₁ ih =>
      intro l₂ hproj p n t
      cases l₂ with
      | nil => simp at hproj
      | cons a₂ tl₂ =>
          simp only [List.map_cons, List.cons.injEq] at hproj
          have hid : a₂.id = a₁.id := congrArg Prod.fst hproj.1
          have hident : rowIdent a₂ = rowIdent a₁ := congrArg Prod.snd hproj.1
          have hsame := sameIdentity_of_ident_eq hident p n t
          have ihtl := ih tl₂ hproj.2 p n t
          cases hp : sameIdentity p n t a₁ with
          | true =>
              rw [List.find?_cons_of_pos _ (hsame ▸ hp),
                List.find?_cons_of_pos _ hp]
              refine ⟨by simp [hid], ?_⟩
              rw [List.filter_cons_of_pos (hsame ▸ hp), List.filter_cons_of_pos hp]
              simpa using ihtl.2
          | false =>
              rw [List.find?_cons_of_neg _ (by simp [hsame, hp]),
                List.find?_cons_of_neg _ (by simp [hp])]
              refine ⟨ihtl.1, ?_⟩
              rw [List.filter_cons_of_neg (by simp [hsame, hp]),
                List.filter_cons_of_neg (by simp [hp])]
              exact ihtl.2

/-- Helper for C1: an `installed`-filter by id skips an event with another
id. -/
theorem filter_installed_skip (e : InstallEvent) (l : List InstallEvent) (idv : Nat)
    (h : ¬ e.componentId = idv) :
    (e :: l).filter (fun x => x.componentId == idv && x.eventType == "installed") =
      l.filter (fun x => x.componentId == idv && x.eventType == "installed") := by
  rw [List.filter_cons_of_neg]
  simp [h]

/-- Helper for C1: per-component facts about the freshly inserted rows and
events — each scan identity owns exactly one fresh row, found by `find?`,
with exactly one `installed` event on that row's id, and distinct
identities own rows with distinct ids. -/
theorem freshInserts_per_component (t : Nat) (cs : List Component) :
    ∀ nid, (cs.map compIdent).Nodup →
    ∀ c ∈ cs, ∃ rc : Row,
      (freshInserts t nid cs).1.find? (sameIdentity c.platform c.name c.type) =
        some rc ∧
      nid ≤ rc.id ∧
      ((freshInserts t nid cs).1.filter
        (sameIdentity c.platform c.name c.type)).length = 1 ∧
      ((freshInserts t nid cs).2.filter
        (fun e => e.componentId == rc.id && e.eventType == "installed")).length = 1 ∧
      ∀ c' ∈ cs, ∀ rc' : Row,
        (freshInserts t nid cs).1.find?
          (sameIdentity c'.platform c'.name c'.type) = some rc' →
        rc'.id = rc.id → compIdent c' = compIdent c := by
  induction cs with
  | nil => intro nid _ c hc; simp at hc
  | cons c₀ rest ih =>
      intro nid hnd c hc
      rw [List.map_cons, List.nodup_cons] at hnd
      have hrow₀ : ∀ c' : Component,
          sameIdentity c'.platform c'.name c'.type
            (⟨nid, c₀.platform, c₀.name, c₀.type, c₀.origin, c₀.status,
              c₀.version, c₀.installPath, t, t, c₀.metadataJson⟩ : Row) = true ↔
          compIdent c' = compIdent c₀ := by
        intro c'
        rw [sameIdentity_iff]
        constructor
        · intro hp
          simp only [compIdent, Prod.mk.injEq]
          exact ⟨hp.1.symm, hp.2.1.symm, hp.2.2.symm⟩
        · intro he
          simp only [compIdent, Prod.mk.injEq] at he
          exact ⟨he.1.symm, he.2.1.symm, he.2.2.symm⟩
      rcases List.mem_cons.mp hc with hc | hc
      · subst hc
        refine ⟨⟨nid, c.platform, c.name, c.type, c.origin, c.status, c.version,
          c.installPath, t, t, c.metadataJson⟩, ?_, Nat.le_refl nid, ?_, ?_, ?_⟩
        · simp only [freshInserts]
          exact List.find?_cons_of_pos _ ((hrow₀ c).mpr rfl)
        · simp only [freshInserts]
          rw [List.filter_cons_of_pos ((hrow₀ c).mpr rfl)]
          have h0 : (freshInserts t (nid + 1) rest).1.filter
              (sameIdentity c.platform c.name c.type) = [] := by
            rw [List.filter_eq_nil_iff]
            intro r hr hp
            apply hnd.1
            have hident : rowIdent r = compIdent c := by
              obtain ⟨h1, h2, h3⟩ := (sameIdentity_iff _ _ _ r).mp hp
              simp [rowIdent, compIdent, h1, h2, h3]
            have hmem : rowIdent r ∈ rest.map compIdent := by
              rw [← freshInserts_idents t rest (nid + 1)]
              exact List.mem_map_of_mem _ hr
            rwa [hident] at hmem
          rw [h0]
          rfl
        · simp only [freshInserts]
          rw [List.filter_cons_of_pos (by simp)]
          have h0 : (freshInserts t (nid + 1) rest).2.filter
              (fun e => e.componentId == nid && e.eventType == "installed") = [] := by
            rw [List.filter_eq_nil_iff]
            intro e he
            have hge := (freshInserts_event_shape t rest (nid + 1) e he).2
            simp only [Bool.and_eq_true, beq_iff_eq]
            rintro ⟨h1, _⟩
            omega
          rw [h0]
          rfl
        · intro c' hc' rc' hfind' hid
          rcases List.mem_cons.mp hc' with hc' | hc'
          · exact hc' ▸ rfl
          · simp only [freshInserts] at hfind'
            cases hp' : sameIdentity c'.platform c'.name c'.type
                (⟨nid, c.platform, c.name, c.type, c.origin, c.status, c.version,
                  c.installPath, t, t, c.metadataJson⟩ : Row) with
            | true => exact (hrow₀ c').mp hp'
            | false =>
                rw [List.find?_cons_of_neg _ (by simp [hp'])] at hfind'
                have hge := freshInserts_row_id_ge t rest (nid + 1) rc'
                  (List.mem_of_find?_eq_some hfind')
                have hid' : rc'.id = nid := hid
                omega
      · have hcne : compIdent c ≠ compIdent c₀ := by
          intro hcontra
          exact hnd.1 (hcontra ▸ List.mem_map_of_mem _ hc)
        have hp₀ : sameIdentity c.platform c.name c.type
            (⟨nid, c₀.platform, c₀.name, c₀.type, c₀.origin, c₀.status,
              c₀.version, c₀.installPath, t, t, c₀.metadataJson⟩ : Row) = false := by
          cases hp : sameIdentity c.platform c.name c.type
              (⟨nid, c₀.platform, c₀.name, c₀.type, c₀.origin, c₀.status,
                c₀.version, c₀.installPath, t, t, c₀.metadataJson⟩ : Row) with
          | false => rfl
          | true => exact absurd ((hrow₀ c).mp hp) hcne
        obtain ⟨rc, hfind, hge, hfilt, hinst, hdist⟩ := ih (nid + 1) hnd.2 c hc
        refine ⟨rc, ?_, by omega, ?_, ?_, ?_⟩
        · simp only [freshInserts]
          rw [List.find?_cons_of_neg _ (by simp [hp₀])]
          exact hfind
        · simp only [freshInserts]
          rw [List.filter_cons_of_neg (by simp [hp₀])]
          exact hfilt
        · simp only [freshInserts]
          rw [filter_installed_skip _ _ _ (show ¬ nid = rc.id by omega)]
          exact hinst
        · intro c' hc' rc' hfind' hid
          simp only [freshInserts] at hfind'
          cases hp' : sameIdentity c'.platform c'.name c'.type
              (⟨nid, c₀.platform, c₀.name, c₀.type, c₀.origin, c₀.status,
                c₀.version, c₀.installPath, t, t, c₀.metadataJson⟩ : Row) with
          | true =>
              rw [List.find?_cons_of_pos _ hp'] at hfind'
              have hrc' : rc'.id = nid := by
                rw [← Option.some.inj hfind']
              omega
          | false =>
              rw [List.find?_cons_of_neg _ (by simp [hp'])] at hfind'
              rcases List.mem_cons.mp hc' with hc' | hc'
              · exfalso
                rw [hc'] at hp'
                have htrue := (hrow₀ c₀).mpr rfl
                rw [htrue] at hp'
                exact absurd hp' (by decide)
              · exact hdist c' hc' rc' hfind' hid

theorem sameIdentity_newRow (c c' : Component) (nid t : Nat) :
    sameIdentity c'.platform c'.name c'.type
      (⟨nid, c.platform, c.name, c.type, c.origin, c.status, c.version,
        c.installPath, t, t, c.metadataJson⟩ : Row) = true ↔
    compIdent c' = compIdent c := by
  rw [sameIdentity_iff]
  constructor
  · intro hp
    simp only [compIdent, Prod.mk.injEq]
    exact ⟨hp.1.symm, hp.2.1.symm, hp.2.2.symm⟩
  · intro he
    simp only [compIdent, Prod.mk.injEq] at he
    exact ⟨he.1.symm, he.2.1.symm, he.2.2.symm⟩

/-- Helper for C1: an upsert pass over all-fresh, pairwise-distinct
identities appends exactly the fresh rows and their `installed` events and
advances the id counter by the number of records. -/
theorem update_components_fresh (cs : List Component) :
    ∀ db : DB, ∀ t : Nat,
    (cs.map compIdent).Nodup →
    (∀ c ∈ cs, ∀ r ∈ db.components,
      sameIdentity c.platform c.name c.type r = false) →
    (update_components t db cs).components =
      db.components ++ (freshInserts t db.nextId cs).1 ∧
    (update_components t db cs).events =
      db.events ++ (freshInserts t db.nextId cs).2 ∧
    (update_components t db cs).nextId = db.nextId + cs.length := by
  induction cs with
  | nil => intro db t _ _; simp [update_components, freshInserts]
  | cons c rest ih =>
      intro db t hnd ha
      rw [List.map_cons, List.nodup_cons] at hnd
      have hfind : db.components.find? (sameIdentity c.platform c.name c.type) =
          none :=
        List.find?_eq_none.mpr fun r hr => by
          simp [ha c (List.mem_cons_self c rest) r hr]
      have hstep : update_components t db (c :: rest) =
          update_components t (upsertComponent t db c) rest := rfl
      have hdb1 : upsertComponent t db c = { db with
          components := db.components ++ [⟨db.nextId, c.platform, c.name, c.type,
            c.origin, c.status, c.version, c.installPath, t, t, c.metadataJson⟩]
          events := db.events ++
            [⟨db.nextId, "installed", t, c.version, c.metadataJson⟩]
          fts := ftsReplace db.fts
            ⟨db.nextId, c.name, c.description, ftsKeywords c.platform c.type⟩
          nextId := db.nextId + 1 } := by
        simp [upsertComponent, hfind]
      have ha' : ∀ c' ∈ rest, ∀ r ∈ (upsertComponent t db c).components,
          sameIdentity c'.platform c'.name c'.type r = false := by
        intro c' hc' r hr
        rw [hdb1] at hr
        rcases List.mem_append.mp hr with hr | hr
        · exact ha c' (List.mem_cons_of_mem c hc') r hr
        · rw [List.mem_singleton] at hr
          subst hr
          cases hp : sameIdentity c'.platform c'.name c'.type
              (⟨db.nextId, c.platform, c.name, c.type, c.origin, c.status,
                c.version, c.installPath, t, t, c.metadataJson⟩ : Row) with
          | false => rfl
          | true =>
              exfalso
              apply hnd.1
              rw [← (sameIdentity_newRow c c' db.nextId t).mp hp]
              exact List.mem_map_of_mem _ hc'
      obtain ⟨ih1, ih2, ih3⟩ := ih (upsertComponent t db c) t hnd.2 ha'
      rw [hstep]
      refine ⟨?_, ?_, ?_⟩
      · rw [ih1, hdb1]
        simp [freshInserts, List.append_assoc]
      · rw [ih2, hdb1]
        simp [freshInserts, List.append_assoc]
      · rw [ih3, hdb1]
        simp only [List.length_cons]
        omega

/-- The id of the row an identity resolves to (0 when absent); what the
update loop reads back with its identity `SELECT`. -/
def dbIdOf (db : DB) (c : Component) : Nat :=
  ((db.components.find? (sameIdentity c.platform c.name c.type)).map (·.id)).getD 0

/-- The `updated` events one upsert pass appends for already-present
records, in scan order. -/
def updatedEventsOf (t : Nat) (db : DB) (cs : List Component) : List InstallEvent :=
  cs.map fun c => ⟨dbIdOf db c, "updated", t, c.version, c.metadataJson⟩

/-- Helper for C1: an upsert pass over identities that are all present
keeps every row's id and identity and appends exactly one `updated` event
per record, on the id its identity resolves to. -/
theorem update_components_existing (cs : List Component) :
    ∀ db : DB, ∀ t : Nat,
    (∀ c ∈ cs, ∃ r ∈ db.components,
      sameIdentity c.platform c.name c.type r = true) →
    ((update_components t db cs).components.map (fun r => (r.id, rowIdent r)) =
      db.components.map (fun r => (r.id, rowIdent r))) ∧
    (update_components t db cs).events = db.events ++ updatedEventsOf t db cs := by
  induction cs with
  | nil => intro db t _; simp [update_components, updatedEventsOf]
  | cons c rest ih =>
      intro db t hex
      obtain ⟨r0, hr0mem, hr0p⟩ := hex c (List.mem_cons_self c rest)
      obtain ⟨rf, hfind⟩ := Option.isSome_iff_exists.mp
        (List.find?_isSome.mpr ⟨r0, hr0mem, hr0p⟩)
      have hstep : update_components t db (c :: rest) =
          update_components t (upsertComponent t db c) rest := rfl
      have hdb1 : upsertComponent t db c = { db with
          components := db.components.map fun r =>
            if r.id == rf.id then
              { r with origin := c.origin, status := c.status, version := c.version,
                       installPath := c.installPath, lastSeen := t,
                       metadataJson := c.metadataJson }
            else r
          events := db.events ++ [⟨rf.id, "updated", t, c.version, c.metadataJson⟩]
          fts := ftsReplace db.fts
            ⟨rf.id, c.name, c.description, ftsKeywords c.platform c.type⟩ } := by
        simp [upsertComponent, hfind]
      have hproj : (upsertComponent t db c).components.map
          (fun r => (r.id, rowIdent r)) =
          db.components.map (fun r => (r.id, rowIdent r)) := by
        rw [hdb1]
        simp only [List.map_map]
        apply List.map_congr_left
        intro x _
        by_cases h : x.id = rf.id <;> simp [h, rowIdent]
      have hex' : ∀ c' ∈ rest, ∃ r ∈ (upsertComponent t db c).components,
          sameIdentity c'.platform c'.name c'.type r = true := by
        intro c' hc'
        obtain ⟨r', hr'm, hr'p⟩ := hex c' (List.mem_cons_of_mem c hc')
        rw [hdb1]
        refine ⟨if r'.id == rf.id then
          { r' with origin := c.origin, status := c.status, version := c.version,
                    installPath := c.installPath, lastSeen := t,
                    metadataJson := c.metadataJson }
          else r', List.mem_map_of_mem _ hr'm, ?_⟩
        by_cases h : (r'.id == rf.id) = true <;> simp only [h, if_pos, if_neg,
          ite_true, ite_false, Bool.false_eq_true] <;>
          simpa [sameIdentity] using hr'p
      obtain ⟨ih1, ih2⟩ := ih (upsertComponent t db c) t hex'
      have hsameid : ∀ c' : Component,
          dbIdOf (upsertComponent t db c) c' = dbIdOf db c' := by
        intro c'
        unfold dbIdOf
        rw [(find?_filter_of_proj_eq db.components
          (upsertComponent t db c).components hproj c'.platform c'.name c'.type).1]
      rw [hstep]
      refine ⟨by rw [ih1, hproj], ?_⟩
      have hhead : dbIdOf db c = rf.id := by
        unfold dbIdOf
        rw [hfind]
        rfl
      have hupd : updatedEventsOf t (upsertComponent t db c) rest =
          updatedEventsOf t db rest :=
        List.map_congr_left fun c' _ => by rw [hsameid c']
      rw [ih2, hupd, hdb1]
      show db.events ++ [⟨rf.id, "updated", t, c.version, c.metadataJson⟩] ++
          updatedEventsOf t db rest = db.events ++ updatedEventsOf t db (c :: rest)
      have hcons : updatedEventsOf t db (c :: rest) =
          ⟨dbIdOf db c, "updated", t, c.version, c.metadataJson⟩ ::
            updatedEventsOf t db rest := rfl
      rw [hcons, hhead, List.append_assoc]
      rfl

theorem filter_eq_singleton_of_nodup {α : Type} [DecidableEq α] (l : List α)
    (a : α) (h : l.Nodup) (ha : a ∈ l) :
    (l.filter (fun x => decide (x = a))).length = 1 := by
  induction l with
  | nil => simp at ha
  | cons b bl ih =>
      rw [List.nodup_cons] at h
      by_cases hb : b = a
      · subst hb
        rw [List.filter_cons_of_pos (by simp)]
        have h0 : bl.filter (fun x => decide (x = b)) = [] := by
          rw [List.filter_eq_nil_iff]
          intro x hx
          simp only [decide_eq_true_eq]
          intro hxa
          exact h.1 (hxa ▸ hx)
        rw [h0]
        rfl
      · rw [List.filter_cons_of_neg (by simp [hb])]
        apply ih h.2
        rcases List.mem_cons.mp ha with h' | h'
        · exact absurd h'.symm hb
        · exact h'

/-- C1 (amended): for every store and scan result whose identities are
pairwise distinct, absent from the store's catalog, and not referenced by
any prior installation event, upserting the result twice leaves exactly one
catalog entry per scan identity, whose event log gains exactly one
`installed` event (from the first, inserting pass) and exactly one
`updated` event (from the second, overwriting pass). -/
theorem upsert_twice_one_install_one_update (db : DB) (cs : List Component)
    (t1 t2 : Nat)
    (hd : (cs.map compIdent).Nodup)
    (ha : ∀ c ∈ cs, ∀ r ∈ db.components,
      sameIdentity c.platform c.name c.type r = false)
    (hev : ∀ e ∈ db.events, e.componentId < db.nextId) :
    ∀ c ∈ cs, ∃ r : Row,
      (update_components t2 (update_components t1 db cs) cs).components.find?
        (sameIdentity c.platform c.name c.type) = some r ∧
      ((update_components t2 (update_components t1 db cs) cs).components.filter
        (sameIdentity c.platform c.name c.type)).length = 1 ∧
      ((update_components t2 (update_components t1 db cs) cs).events.filter
        (fun e => e.componentId == r.id && e.eventType == "installed")).length = 1 ∧
      ((update_components t2 (update_components t1 db cs) cs).events.filter
        (fun e => e.componentId == r.id && e.eventType == "updated")).length = 1 := by
  obtain ⟨hA1, hA2, hA3⟩ := update_components_fresh cs db t1 hd ha
  intro c hc
  obtain ⟨rc, hfindF, hgeF, hfiltF, hinstF, hdist⟩ :=
    freshInserts_per_component t1 cs db.nextId hd c hc
  -- identity lookup on the store after the first pass
  have hfind0 : ∀ c' ∈ cs,
      (update_components t1 db cs).components.find?
        (sameIdentity c'.platform c'.name c'.type) =
      (freshInserts t1 db.nextId cs).1.find?
        (sameIdentity c'.platform c'.name c'.type) := by
    intro c' hc'
    rw [hA1, List.find?_append,
      List.find?_eq_none.mpr fun r hr => by simp [ha c' hc' r hr]]
    rfl
  have hex : ∀ c' ∈ cs, ∃ r ∈ (update_components t1 db cs).components,
      sameIdentity c'.platform c'.name c'.type r = true := by
    intro c' hc'
    obtain ⟨rc', hf', _, _, _, _⟩ :=
      freshInserts_per_component t1 cs db.nextId hd c' hc'
    refine ⟨rc', ?_, List.find?_some hf'⟩
    rw [hA1]
    exact List.mem_append_right _ (List.mem_of_find?_eq_some hf')
  obtain ⟨hB1, hB2⟩ :=
    update_components_existing cs (update_components t1 db cs) t2 hex
  have hfind1 : (update_components t1 db cs).components.find?
      (sameIdentity c.platform c.name c.type) = some rc :=
    (hfind0 c hc).trans hfindF
  -- the final store still finds a row with the fresh row's id
  have hproj2 := find?_filter_of_proj_eq
    (update_components t1 db cs).components
    (update_components t2 (update_components t1 db cs) cs).components
    hB1 c.platform c.name c.type
  have hfind2 : ∃ r : Row,
      (update_components t2 (update_components t1 db cs) cs).components.find?
        (sameIdentity c.platform c.name c.type) = some r ∧ r.id = rc.id := by
    have := hproj2.1
    rw [hfind1] at this
    cases hf2 : (update_components t2 (update_components t1 db cs)
        cs).components.find? (sameIdentity c.platform c.name c.type) with
    | none => rw [hf2] at this; simp at this
    | some r =>
        rw [hf2] at this
        exact ⟨r, rfl, by simpa using this⟩
  obtain ⟨r, hfr, hrid⟩ := hfind2
  refine ⟨r, hfr, ?_, ?_, ?_⟩
  · -- exactly one catalog entry for the identity
    rw [hproj2.2, hA1, List.filter_append,
      List.filter_eq_nil_iff.mpr fun x hx => by simp [ha c hc x hx]]
    simpa using hfiltF
  · -- exactly one installed event on the entry's id
    rw [hB2, hA2, List.append_assoc, List.filter_append, List.filter_append,
      List.length_append, List.length_append, hrid]
    have h1 : db.events.filter
        (fun e => e.componentId == rc.id && e.eventType == "installed") = [] := by
      rw [List.filter_eq_nil_iff]
      intro e he
      have := hev e he
      simp only [Bool.and_eq_true, beq_iff_eq]
      rintro ⟨hcontra, _⟩
      omega
    have h3 : (updatedEventsOf t2 (update_components t1 db cs) cs).filter
        (fun e => e.componentId == rc.id && e.eventType == "installed") = [] := by
      rw [List.filter_eq_nil_iff]
      intro e he
      obtain ⟨c', _, he'⟩ := List.mem_map.mp he
      subst he'
      simp
    rw [h1, h3, hinstF]
    rfl
  · -- exactly one updated event on the entry's id
    rw [hB2, hA2, List.append_assoc, List.filter_append, List.filter_append,
      List.length_append, List.length_append, hrid]
    have h1 : db.events.filter
        (fun e => e.componentId == rc.id && e.eventType == "updated") = [] := by
      rw [List.filter_eq_nil_iff]
      intro e he
      have := hev e he
      simp only [Bool.and_eq_true, beq_iff_eq]
      rintro ⟨hcontra, _⟩
      omega
    have h2 : (freshInserts t1 db.nextId cs).2.filter
        (fun e => e.componentId == rc.id && e.eventType == "updated") = [] := by
      rw [List.filter_eq_nil_iff]
      intro e he
      have := (freshInserts_event_shape t1 cs db.nextId e he).1
      simp only [Bool.and_eq_true, beq_iff_eq]
      rintro ⟨_, hcontra⟩
      rw [this] at hcontra
      exact absurd hcontra (by decide)
    have h3 : ((updatedEventsOf t2 (update_components t1 db cs) cs).filter
        (fun e => e.componentId == rc.id && e.eventType == "updated")).length = 1 := by
      unfold updatedEventsOf
      rw [List.filter_map, List.length_map]
      have hpt : ∀ x ∈ cs,
          ((fun e : InstallEvent => e.componentId == rc.id && e.eventType == "updated") ∘
            fun x : Component =>
              (⟨dbIdOf (update_components t1 db cs) x, "updated", t2, x.version,
                x.metadataJson⟩ : InstallEvent)) x =
          decide (compIdent x = compIdent c) := by
        intro c' hc'
        obtain ⟨rc', hf', hge', _, _, _⟩ :=
          freshInserts_per_component t1 cs db.nextId hd c' hc'
        have hdbid : dbIdOf (update_components t1 db cs) c' = rc'.id := by
          unfold dbIdOf
          rw [hfind0 c' hc', hf']
          rfl
        show (dbIdOf (update_components t1 db cs) c' == rc.id &&
          (("updated" : String) == "updated")) = decide (compIdent c' = compIdent c)
        rw [hdbid]
        cases hdec : decide (compIdent c' = compIdent c) with
        | true =>
            have hident : compIdent c' = compIdent c := of_decide_eq_true hdec
            have e1 : c'.platform = c.platform := congrArg Prod.fst hident
            have e2 : c'.name = c.name := congrArg (fun y => y.2.1) hident
            have e3 : c'.type = c.type := congrArg (fun y => y.2.2) hident
            have hrc'rc : rc' = rc := by
              rw [e1, e2, e3, hfindF] at hf'
              exact (Option.some.inj hf').symm
            simp [hrc'rc]
        | false =>
            have hne : ¬ compIdent c' = compIdent c := of_decide_eq_false hdec
            cases hbeq : (rc'.id == rc.id) with
            | true =>
                exact absurd (hdist c' hc' rc' hf' (by simpa using hbeq)) hne
            | false => simp [hbeq]
      rw [List.filter_congr hpt]
      have hlen := filter_eq_singleton_of_nodup (cs.map compIdent) (compIdent c)
        hd (List.mem_map_of_mem _ hc)
      rw [List.filter_map, List.length_map] at hlen
      exact hlen
    rw [h1, h2, h3]
    rfl

/-- Two fresh scan records with distinct identities (C1 witness input). -/
def scanA : Component :=
  ⟨"claude", "a", "skill", "official", "active", Option.none, "/a", "ma", "da"⟩

def scanB : Component :=
  ⟨"claude", "b", "mcp", "external", "active", Option.some "1", "/b", "mb", "dscb"⟩

/-- C1 witness: upserting the two-record scan result twice into the empty
store leaves one entry for `scanA`'s identity with exactly one `installed`
and one `updated` event. -/
theorem upsert_twice_one_install_one_update_witness :
    (([scanA, scanB].map compIdent).Nodup ∧
      (∀ c ∈ [scanA, scanB], ∀ r ∈ DB.empty.components,
        sameIdentity c.platform c.name c.type r = false) ∧
      (∀ e ∈ DB.empty.events, e.componentId < DB.empty.nextId)) ∧
    ∃ r : Row,
      (update_components 1 (update_components 0 DB.empty [scanA, scanB])
        [scanA, scanB]).components.find?
        (sameIdentity scanA.platform scanA.name scanA.type) = some r ∧
      ((update_components 1 (update_components 0 DB.empty [scanA, scanB])
        [scanA, scanB]).components.filter
        (sameIdentity scanA.platform scanA.name scanA.type)).length = 1 ∧
      ((update_components 1 (update_components 0 DB.empty [scanA, scanB])
        [scanA, scanB]).events.filter
        (fun e => e.componentId == r.id && e.eventType == "installed")).length = 1 ∧
      ((update_components 1 (update_components 0 DB.empty [scanA, scanB])
        [scanA, scanB]).events.filter
        (fun e => e.componentId == r.id && e.eventType == "updated")).length = 1 :=
  ⟨⟨by decide, by decide, by decide⟩,
   upsert_twice_one_install_one_update DB.empty [scanA, scanB] 0 1
     (by decide) (by decide) (by decide) scanA (by decide)⟩

/-- C8 witness: on durations `[0, 20, 10]` the reported p95 is the amended
formula's value over the positive durations `[20, 10]`, namely `20`. -/
theorem p95_over_positive_durations_witness :
    (mixedDurationsDb.components.find? (sameIdentity "claude" "x" "mcp") =
      some ⟨0, "claude", "x", "mcp", "external", "active", Option.none,
        "/p", 0, 0, "m"⟩) ∧
    get_component_usage_p95 mixedDurationsDb "claude" "x" "mcp" 0 =
      specP95 (((windowRows mixedDurationsDb 0 0).filterMap (·.durationMs)).filter
        (fun d => d != 0)) ∧
    get_component_usage_p95 mixedDurationsDb "claude" "x" "mcp" 0 = Option.some 20 :=
  ⟨by decide,
   p95_over_positive_durations mixedDurationsDb "claude" "x" "mcp" 0
     ⟨0, "claude", "x", "mcp", "external", "active", Option.none, "/p", 0, 0, "m"⟩
     (by decide),
   by decide⟩
